import Mathlib

/-!
Verification of `vite-plugin-single-image-format` (`src/index.ts`) against its
natural-language specification.  The plugin's string-rewriting machinery is
embedded shallowly over `List Char`; byte payloads are embedded as `List Nat`;
the external codec (`sharp`) is an oracle parameter of the bundle pass.
-/

namespace SIF

/-- Strings are modelled as lists of characters so that the JavaScript regex
scans of the source can be embedded as structural recursion. -/
abbrev Str := List Char

/-- The double-quote character. -/
def dq : Char := Char.ofNat 34

/-- The single-quote character. -/
def sq : Char := Char.ofNat 39

/-- The JavaScript `\s` class, restricted to the ASCII whitespace characters
(space, tab, line feed, vertical tab, form feed, carriage return).  All texts
appearing in the development use only these whitespace characters, so the
restriction is faithful on every input we quantify over. -/
def isWsJS (c : Char) : Bool :=
  c = ' ' ∨ c = Char.ofNat 9 ∨ c = Char.ofNat 10 ∨ c = Char.ofNat 11 ∨
  c = Char.ofNat 12 ∨ c = Char.ofNat 13

/-- Complement of the character class `[^"'\s)><#]` used by the query-string
group of the reference-rewriting regexes in `src/index.ts`
(`applyRenameMapToString`, `applyKeepStripToString` and the MagicString
variants): `true` for the characters the class excludes. -/
def qStop (c : Char) : Bool :=
  c = dq ∨ c = sq ∨ c = ')' ∨ c = '>' ∨ c = '<' ∨ c = '#' ∨ isWsJS c

/-- Complement of the character class `[^"'\s)><]` used by the fragment group
of the same regexes (note `#` is permitted inside a fragment run). -/
def hStop (c : Char) : Bool :=
  c = dq ∨ c = sq ∨ c = ')' ∨ c = '>' ∨ c = '<' ∨ isWsJS c

/-- `isPrefixAt pat s i` holds when `pat` occurs in `s` starting at index `i`. -/
def isPrefixAt (pat s : Str) (i : Nat) : Bool :=
  pat.isPrefixOf (s.drop i)

/-- All indices at which `pat` occurs in `s` (computable occurrence list). -/
def occList (pat s : Str) : List Nat :=
  (List.range (s.length + 1)).filter (fun i => isPrefixAt pat s i)

/-- Substring test, mirroring JavaScript `String.prototype.includes`. -/
def containsSub (pat s : Str) : Bool :=
  (occList pat s) ≠ []

theorem mem_occList {pat s : Str} {i : Nat} :
    i ∈ occList pat s ↔ i ≤ s.length ∧ isPrefixAt pat s i = true := by
  simp only [occList, List.mem_filter, List.mem_range, Nat.lt_succ_iff]

theorem isPrefixAt_iff_append {pat s : Str} {i : Nat} :
    isPrefixAt pat s i = true ↔ ∃ t, s.drop i = pat ++ t := by
  constructor
  · intro h
    rcases (List.isPrefixOf_iff_prefix.mp h) with ⟨t, ht⟩
    exact ⟨t, ht.symm⟩
  · rintro ⟨t, ht⟩
    exact List.isPrefixOf_iff_prefix.mpr ⟨t, ht.symm⟩

theorem exists_split_of_isPrefixAt {pat s : Str} {i : Nat}
    (hi : i ≤ s.length) (h : isPrefixAt pat s i = true) :
    ∃ a b, s = a ++ pat ++ b ∧ a.length = i := by
  rcases isPrefixAt_iff_append.mp h with ⟨t, ht⟩
  refine ⟨s.take i, t, ?_, by simp [List.length_take, Nat.min_eq_left hi]⟩
  calc s = s.take i ++ s.drop i := (List.take_append_drop i s).symm
    _ = s.take i ++ pat ++ t := by rw [ht, List.append_assoc]

theorem isPrefixAt_of_split {pat a b : Str} :
    isPrefixAt pat (a ++ pat ++ b) a.length = true := by
  apply isPrefixAt_iff_append.mpr
  exact ⟨b, by simp [List.append_assoc]⟩

/-!
### The shared reference regex

Every reference-rewriting regex of `src/index.ts` has the shape
`(<escaped path>)(\?[^"'\s)><#]*?)?(#[^"'\s)><]*)?` applied globally.  Because
the query group is lazy and everything after it is optional, the query group
consumes exactly one `?` character (or nothing), and the fragment group
consumes `#` followed by the maximal run of non-`hStop` characters (or
nothing).  `consumeSuffix` computes the pair (consumed suffix, rest).
-/

/-- Suffix consumed by the optional query/fragment groups of the shared regex
at the position immediately after a path match, together with the remainder of
the text. -/
def consumeSuffix (s : Str) : Str × Str :=
  match s with
  | [] => ([], [])
  | c :: rest =>
    if c = '?' then
      match rest with
      | [] => (['?'], [])
      | d :: r2 =>
        if d = '#' then
          let run := r2.takeWhile (fun x => ¬ hStop x)
          ('?' :: '#' :: run, r2.drop run.length)
        else (['?'], rest)
    else if c = '#' then
      let run := rest.takeWhile (fun x => ¬ hStop x)
      ('#' :: run, rest.drop run.length)
    else ([], s)

theorem prefix_append_drop {α : Type} {l1 l : List α} (h : l1 <+: l) :
    l1 ++ l.drop l1.length = l := by
  rcases h with ⟨t, rfl⟩
  simp

theorem consumeSuffix_append (s : Str) :
    (consumeSuffix s).1 ++ (consumeSuffix s).2 = s := by
  cases s with
  | nil => rfl
  | cons c rest =>
    by_cases hc : c = '?'
    · subst hc
      cases rest with
      | nil => rfl
      | cons d r2 =>
        by_cases hd : d = '#'
        · subst hd
          have h1 : consumeSuffix ('?' :: '#' :: r2) =
              ('?' :: '#' :: r2.takeWhile (fun x => ¬ hStop x),
               r2.drop (r2.takeWhile (fun x => ¬ hStop x)).length) := rfl
          rw [h1]
          simp only [List.cons_append]
          exact congrArg ('?' :: '#' :: ·) (prefix_append_drop (List.takeWhile_prefix _))
        · have h1 : consumeSuffix ('?' :: d :: r2) = (['?'], d :: r2) := by
            simp [consumeSuffix, hd]
          rw [h1]
          rfl
    · by_cases hc2 : c = '#'
      · subst hc2
        have h1 : consumeSuffix ('#' :: rest) =
            ('#' :: rest.takeWhile (fun x => ¬ hStop x),
             rest.drop (rest.takeWhile (fun x => ¬ hStop x)).length) := rfl
        rw [h1]
        simp only [List.cons_append]
        exact congrArg ('#' :: ·) (prefix_append_drop (List.takeWhile_prefix _))
      · have h1 : consumeSuffix (c :: rest) = ([], c :: rest) := by
          simp [consumeSuffix, hc, hc2]
        rw [h1]
        rfl

theorem consumeSuffix_length_le (s : Str) :
    (consumeSuffix s).2.length ≤ s.length := by
  have h := consumeSuffix_append s
  have : (consumeSuffix s).1.length + (consumeSuffix s).2.length = s.length := by
    rw [← List.length_append, h]
  omega

/-- One global pass of JavaScript `String.replace` with the shared reference
regex for a literal path `pat` (the source escapes `pat` with `escapeRe`, so
the regex matches `pat` literally), with replacement callback
`toPath + qPart + hashPart`: each match of `pat` is rewritten to `rep` and the
consumed query/fragment suffix is emitted unchanged; scanning resumes after
the consumed suffix.  The fuel argument only bounds the recursion; the wrapper
`replaceRE` supplies `s.length`, which always suffices because each step
consumes at least one character. -/
def replaceREF (pat rep : Str) : Nat → Str → Str
  | 0, s => s
  | _ + 1, [] => []
  | f + 1, c :: t =>
    if pat ≠ [] ∧ pat.isPrefixOf (c :: t) then
      let rest := (c :: t).drop pat.length
      let su := consumeSuffix rest
      rep ++ su.1 ++ replaceREF pat rep f su.2
    else
      c :: replaceREF pat rep f t

/-- Wrapper fixing the fuel of `replaceREF` at the text length. -/
def replaceRE (pat rep s : Str) : Str :=
  replaceREF pat rep s.length s

/-- Plain leftmost non-overlapping global replacement of a literal pattern:
the reading of the specification sentence "every textual occurrence of a
spelling of `oldName` is replaced by the matching spelling of `newName`, with
any query/fragment suffix preserved byte-for-byte".  (Matches are replaced by
`rep` and every other byte of the text, query strings and fragments included,
stays in place.) -/
def naiveReplaceF (pat rep : Str) : Nat → Str → Str
  | 0, s => s
  | _ + 1, [] => []
  | f + 1, c :: t =>
    if pat ≠ [] ∧ pat.isPrefixOf (c :: t) then
      rep ++ naiveReplaceF pat rep f ((c :: t).drop pat.length)
    else
      c :: naiveReplaceF pat rep f t

/-- Wrapper fixing the fuel of `naiveReplaceF` at the text length. -/
def naiveReplace (pat rep s : Str) : Str :=
  naiveReplaceF pat rep s.length s

theorem not_isPrefixOf_of_head_ne {pat : Str} {c : Char} {r : Str}
    (hp : pat ≠ []) (hq : pat.head? ≠ some c) :
    pat.isPrefixOf (c :: r) = false := by
  cases pat with
  | nil => exact absurd rfl hp
  | cons p ps =>
    have hpc : p ≠ c := by
      intro hh
      exact hq (by simp [hh])
    simp [List.isPrefixOf, hpc]

theorem length_drop_cons_le {pat : Str} {c : Char} {t : Str} (hp : pat ≠ []) :
    ((c :: t).drop pat.length).length ≤ t.length := by
  have h1 : 1 ≤ pat.length := by
    cases pat with
    | nil => exact absurd rfl hp
    | cons a b => simp
  simp only [List.length_drop, List.length_cons]
  omega

/-- On text containing no `#`, and for a pattern that does not begin with `?`
(true of every path spelling the plugin generates), the shared reference regex
is extensionally a plain global replacement of the literal pattern: each
occurrence becomes `rep` and all other bytes, query strings included, stay in
place. -/
theorem replaceREF_eq_naiveReplaceF (pat rep : Str)
    (hp : pat ≠ []) (hq : pat.head? ≠ some '?') :
    ∀ f : Nat, ∀ g : Nat, ∀ s : Str, s.length ≤ f → s.length ≤ g → '#' ∉ s →
      replaceREF pat rep f s = naiveReplaceF pat rep g s := by
  intro f
  induction f with
  | zero =>
    intro g s hlen _ _
    have : s = [] := List.length_eq_zero.mp (Nat.le_zero.mp hlen)
    subst this
    cases g <;> rfl
  | succ m ih =>
    intro g s hlen hgen hhash
    cases s with
    | nil => cases g <;> rfl
    | cons c t =>
      have hg1 : 1 ≤ g := by
        simp only [List.length_cons] at hgen
        omega
      obtain ⟨g2, rfl⟩ : ∃ g2, g = g2 + 1 := ⟨g - 1, by omega⟩
      have htm : t.length ≤ m := by
        simp only [List.length_cons] at hlen
        omega
      have htg : t.length ≤ g2 := by
        simp only [List.length_cons] at hgen
        omega
      by_cases hpre : pat.isPrefixOf (c :: t) = true
      · have hcond : pat ≠ [] ∧ pat.isPrefixOf (c :: t) := ⟨hp, hpre⟩
        simp only [replaceREF, naiveReplaceF, if_pos hcond]
        have hrest : '#' ∉ (c :: t).drop pat.length := by
          intro hmem
          exact hhash (List.drop_subset _ _ hmem)
        have hrlen : ((c :: t).drop pat.length).length ≤ t.length :=
          length_drop_cons_le hp
        cases hdrop : (c :: t).drop pat.length with
        | nil =>
          simp only [hdrop, consumeSuffix]
          rw [ih g2 [] (by simp) (by simp) (by simp)]
          simp
        | cons d r =>
          rw [hdrop] at hrest
          rw [hdrop] at hrlen
          by_cases hdq : d = '?'
          · subst hdq
            have hrr : '#' ∉ r := fun hm => hrest (List.mem_cons_of_mem _ hm)
            have hrlen2 : r.length ≤ m := by
              simp only [List.length_cons] at hrlen
              omega
            have hrleng : r.length + 1 ≤ g2 := by
              simp only [List.length_cons] at hrlen
              omega
            obtain ⟨g3, rfl⟩ : ∃ g3, g2 = g3 + 1 := ⟨g2 - 1, by omega⟩
            cases r with
            | nil =>
              have hstep : consumeSuffix ['?'] = (['?'], []) := by
                simp [consumeSuffix]
              rw [hstep]
              have hnp : ¬ (pat ≠ [] ∧ pat.isPrefixOf ['?'] = true) := by
                intro hc
                rw [not_isPrefixOf_of_head_ne hp hq] at hc
                exact Bool.false_ne_true hc.2
              conv_rhs => rw [naiveReplaceF]
              rw [if_neg hnp]
              rw [ih g3 [] (by simp) (by simp) (by simp)]
              cases g3 <;> simp [naiveReplaceF]
            | cons e r2 =>
              have he : e ≠ '#' := by
                intro hh
                exact hrest (by simp [hh])
              have hstep : consumeSuffix ('?' :: e :: r2) = (['?'], e :: r2) := by
                simp [consumeSuffix, he]
              rw [hstep]
              have hnp : ¬ (pat ≠ [] ∧ pat.isPrefixOf ('?' :: e :: r2) = true) := by
                intro hc
                rw [not_isPrefixOf_of_head_ne hp hq] at hc
                exact Bool.false_ne_true hc.2
              conv_rhs => rw [naiveReplaceF]
              rw [if_neg hnp]
              have hlen3 : (e :: r2).length ≤ m := by
                simp only [List.length_cons] at hrlen ⊢
                omega
              have hleng3 : (e :: r2).length ≤ g3 := by
                simp only [List.length_cons] at hrleng ⊢
                omega
              have hhh : '#' ∉ (e :: r2) := hrr
              rw [ih g3 (e :: r2) hlen3 hleng3 hhh]
              simp
          · have hd2 : d ≠ '#' := by
              intro hh
              exact hrest (by simp [hh])
            have hstep : consumeSuffix (d :: r) = ([], d :: r) := by
              simp [consumeSuffix, hdq, hd2]
            rw [hstep]
            have hlen3 : (d :: r).length ≤ m := by
              omega
            have hleng3 : (d :: r).length ≤ g2 := by
              omega
            rw [ih g2 (d :: r) hlen3 hleng3 hrest]
            simp
      · have hnc : ¬ (pat ≠ [] ∧ pat.isPrefixOf (c :: t) = true) := by
          intro hc
          exact hpre hc.2
        simp only [replaceREF, naiveReplaceF, if_neg hnc]
        have htl : '#' ∉ t := fun hmem => hhash (List.mem_cons_of_mem _ hmem)
        rw [ih g2 t htm htg htl]

/-- Wrapper form of `replaceREF_eq_naiveReplaceF`. -/
theorem replaceRE_eq_naiveReplace (pat rep s : Str)
    (hp : pat ≠ []) (hq : pat.head? ≠ some '?') (hs : '#' ∉ s) :
    replaceRE pat rep s = naiveReplace pat rep s :=
  replaceREF_eq_naiveReplaceF pat rep hp hq s.length s.length s
    (Nat.le_refl _) (Nat.le_refl _) hs

/-- `naiveReplace` introduces no character that is absent from both the text
and the replacement. -/
theorem naiveReplaceF_not_mem {x : Char} (pat rep : Str) :
    ∀ f : Nat, ∀ s : Str, x ∉ s → x ∉ rep → x ∉ naiveReplaceF pat rep f s := by
  intro f
  induction f with
  | zero => intro s hs _; simpa [naiveReplaceF] using hs
  | succ m ih =>
    intro s hs hr
    cases s with
    | nil => simp [naiveReplaceF]
    | cons c t =>
      by_cases hpre : pat ≠ [] ∧ pat.isPrefixOf (c :: t) = true
      · simp only [naiveReplaceF, if_pos hpre]
        intro hmem
        rcases List.mem_append.mp hmem with h1 | h2
        · exact hr h1
        · have hdrop : x ∉ (c :: t).drop pat.length := by
            intro hm
            exact hs (List.drop_subset _ _ hm)
          exact ih _ hdrop hr h2
      · simp only [naiveReplaceF, if_neg hpre]
        intro hmem
        rcases List.mem_cons.mp hmem with h1 | h2
        · exact hs (by simp [h1])
        · have htl : x ∉ t := fun hm => hs (List.mem_cons_of_mem _ hm)
          exact ih t htl hr h2

theorem naiveReplace_not_mem {x : Char} {pat rep s : Str}
    (hs : x ∉ s) (hr : x ∉ rep) : x ∉ naiveReplace pat rep s :=
  naiveReplaceF_not_mem pat rep s.length s hs hr


/-!
### POSIX path model

`src/index.ts` uses `node:path`'s `posix` flavour: `dirname` of an artifact
name, `relative` between a directory and an artifact name, and `parse` for
hashed-name construction.  Bundle artifact names are normalized relative
paths (no `.`/`..` segments, not absolute), and `dirname` of such a name is
either `.` or a normalized relative directory; the model below implements
the `node` functions on exactly that input space.
-/

/-- Split a character list on `/` (always returns at least one piece). -/
def splitOnSlash (s : Str) : List Str :=
  match s with
  | [] => [[]]
  | c :: t =>
    let rest := splitOnSlash t
    if c = '/' then [] :: rest
    else
      match rest with
      | [] => [[c]]
      | h :: t2 => (c :: h) :: t2

/-- Join path segments with `/`. -/
def joinSegs : List Str → Str
  | [] => []
  | [x] => x
  | x :: y :: t => x ++ '/' :: joinSegs (y :: t)

/-- Segments of a directory-or-path operand of `posix.relative`: `.` and the
empty path denote the reference directory itself (no segments). -/
def splitSegs (p : Str) : List Str :=
  if p = [] ∨ p = ['.'] then [] else splitOnSlash p

/-- Drop the common leading segments of two segment lists. -/
def dropCommon : List Str → List Str → List Str × List Str
  | a :: as, b :: bs => if a = b then dropCommon as bs else (a :: as, b :: bs)
  | as, bs => (as, bs)

/-- `posix.relative` on normalized relative paths: walk up from `fromDir` with
`..` segments, then down into `toPath`. -/
def posixRelative (fromDir toPath : Str) : Str :=
  let pr := dropCommon (splitSegs fromDir) (splitSegs toPath)
  joinSegs (pr.1.map (fun _ => ['.', '.']) ++ pr.2)

/-- `posix.dirname` on normalized relative paths (`.` when there is no
slash). -/
def posixDirname (p : Str) : Str :=
  match splitOnSlash p with
  | [] => ['.']
  | [_] => ['.']
  | s1 :: s2 :: t => joinSegs ((s1 :: s2 :: t).dropLast)

theorem mem_splitOnSlash {s : Str} :
    ∀ p ∈ splitOnSlash s, ∀ c ∈ p, c ∈ s := by
  induction s with
  | nil =>
    intro p hp c hc
    simp only [splitOnSlash, List.mem_singleton] at hp
    subst hp
    exact absurd hc (List.not_mem_nil c)
  | cons x t ihx =>
    intro p hp c hc
    simp only [splitOnSlash] at hp
    by_cases hx : x = '/'
    · rw [if_pos hx] at hp
      rcases List.mem_cons.mp hp with h1 | h2
      · subst h1
        exact absurd hc (List.not_mem_nil c)
      · exact List.mem_cons_of_mem _ (ihx p h2 c hc)
    · rw [if_neg hx] at hp
      cases hrest : splitOnSlash t with
      | nil =>
        rw [hrest] at hp
        simp only [List.mem_singleton] at hp
        subst hp
        simp only [List.mem_singleton] at hc
        simp [hc]
      | cons h t2 =>
        rw [hrest] at hp
        rcases List.mem_cons.mp hp with h1 | h2
        · subst h1
          rcases List.mem_cons.mp hc with hc1 | hc2
          · simp [hc1]
          · have : c ∈ h := hc2
            have hmem : h ∈ splitOnSlash t := by rw [hrest]; exact List.mem_cons_self _ _
            exact List.mem_cons_of_mem _ (ihx h hmem c this)
        · have hmem : p ∈ splitOnSlash t := by rw [hrest]; exact List.mem_cons_of_mem _ h2
          exact List.mem_cons_of_mem _ (ihx p hmem c hc)

theorem mem_joinSegs {l : List Str} :
    ∀ c ∈ joinSegs l, c = '/' ∨ ∃ p ∈ l, c ∈ p := by
  induction l with
  | nil =>
    intro c hc
    exact absurd hc (List.not_mem_nil c)
  | cons x t ihx =>
    intro c hc
    cases t with
    | nil =>
      right
      exact ⟨x, List.mem_singleton_self x, hc⟩
    | cons y t2 =>
      simp only [joinSegs] at hc
      rcases List.mem_append.mp hc with h1 | h2
      · right
        exact ⟨x, List.mem_cons_self _ _, h1⟩
      · rcases List.mem_cons.mp h2 with h3 | h4
        · left; exact h3
        · rcases ihx c h4 with h5 | ⟨p, hp, hcp⟩
          · left; exact h5
          · right; exact ⟨p, List.mem_cons_of_mem _ hp, hcp⟩

theorem mem_splitSegs {p piece : Str} (h : piece ∈ splitSegs p) :
    ∀ c ∈ piece, c ∈ p := by
  intro c hc
  unfold splitSegs at h
  split at h
  · exact absurd h (List.not_mem_nil piece)
  · exact mem_splitOnSlash piece h c hc

theorem dropCommon_snd_subset :
    ∀ a b : List Str, ∀ p ∈ (dropCommon a b).2, p ∈ b := by
  intro a
  induction a with
  | nil =>
    intro b p hp
    simpa [dropCommon] using hp
  | cons x as ihx =>
    intro b p hp
    cases b with
    | nil => simpa [dropCommon] using hp
    | cons y bs =>
      simp only [dropCommon] at hp
      by_cases hxy : x = y
      · rw [if_pos hxy] at hp
        exact List.mem_cons_of_mem _ (ihx bs p hp)
      · rw [if_neg hxy] at hp
        exact hp

/-- Every character of a relative spelling comes from the operands or is a
path punctuation character. -/
theorem mem_posixRelative {fromDir toPath : Str} {c : Char}
    (hc : c ∈ posixRelative fromDir toPath) :
    c = '/' ∨ c = '.' ∨ c ∈ toPath := by
  unfold posixRelative at hc
  rcases mem_joinSegs c hc with h1 | ⟨p, hp, hcp⟩
  · left; exact h1
  · rcases List.mem_append.mp hp with h2 | h3
    · rcases List.mem_map.mp h2 with ⟨q, _, hq⟩
      subst hq
      right; left
      rcases List.mem_cons.mp hcp with h4 | h5
      · exact h4
      · simpa using h5
    · right; right
      have hpb : p ∈ splitSegs toPath := dropCommon_snd_subset _ _ p h3
      exact mem_splitSegs hpb c hcp

/-!
### Reference rewriting (`applyRenameMapToString`, lines 206-238)
-/

/-- The spelling variants used for a rename pair relative to a referencing
artifact directory (`variantPairs` in `applyRenameMapToString` and
`applyRenameMapToMagicString`): the raw names, the relative spellings, and the
`./`-prefixed relative spellings when the relative spelling starts with
neither `.` nor `/`. -/
def variantPairs (fromDir oldName newName : Str) : List (Str × Str) :=
  let oldRel := posixRelative fromDir oldName
  let newRel := posixRelative fromDir newName
  let base := [(oldName, newName), (oldRel, newRel)]
  if oldRel.head? ≠ some '.' ∧ oldRel.head? ≠ some '/' then
    base ++ [('.' :: '/' :: oldRel, '.' :: '/' :: newRel)]
  else
    base

/-- `applyRenameMapToString` of `src/index.ts`: for each rename pair and each
spelling variant in order, one global pass of the shared reference regex. -/
def applyRenameMapToString (code : Str) (fromDir : Str)
    (renameMap : List (Str × Str)) : Str :=
  renameMap.foldl
    (fun next pr =>
      (variantPairs fromDir pr.1 pr.2).foldl
        (fun acc vp => replaceRE vp.1 vp.2 acc) next)
    code

/-- The rewrite described by the specification sentence for the Reference
Rewriter: for each pair and each spelling variant, every textual occurrence of
the old spelling is replaced by the matching new spelling, and every byte that
is not part of an occurrence — any trailing query string or fragment included
— is preserved in place. -/
def specRenameRewrite (code : Str) (fromDir : Str)
    (renameMap : List (Str × Str)) : Str :=
  renameMap.foldl
    (fun next pr =>
      (variantPairs fromDir pr.1 pr.2).foldl
        (fun acc vp => naiveReplace vp.1 vp.2 acc) next)
    code

theorem fold_replaceRE_eq_naive (vl : List (Str × Str)) :
    ∀ code : Str, '#' ∉ code →
    (∀ vp ∈ vl, vp.1 ≠ [] ∧ vp.1.head? ≠ some '?' ∧ '#' ∉ vp.2) →
    vl.foldl (fun acc vp => replaceRE vp.1 vp.2 acc) code
      = vl.foldl (fun acc vp => naiveReplace vp.1 vp.2 acc) code
    ∧ '#' ∉ vl.foldl (fun acc vp => naiveReplace vp.1 vp.2 acc) code := by
  induction vl with
  | nil =>
    intro code hcode _
    exact ⟨rfl, hcode⟩
  | cons v vs ihv =>
    intro code hcode hall
    have hv := hall v (List.mem_cons_self _ _)
    have hstep : replaceRE v.1 v.2 code = naiveReplace v.1 v.2 code :=
      replaceRE_eq_naiveReplace v.1 v.2 code hv.1 hv.2.1 hcode
    have hkeep : '#' ∉ naiveReplace v.1 v.2 code :=
      naiveReplace_not_mem hcode hv.2.2
    have hrest : ∀ vp ∈ vs, vp.1 ≠ [] ∧ vp.1.head? ≠ some '?' ∧ '#' ∉ vp.2 :=
      fun vp hvp => hall vp (List.mem_cons_of_mem _ hvp)
    have ihr := ihv (naiveReplace v.1 v.2 code) hkeep hrest
    constructor
    · simp only [List.foldl_cons, hstep]
      exact ihr.1
    · simp only [List.foldl_cons]
      exact ihr.2


/-- C1 (amended).  For every `(oldName, newName)` pair in the RenameMap, the
variant spellings are processed in order (raw, relative, `./`-prefixed), each
pass rewriting the result of the previous one; whenever the artifact text
contains no `#` character (so that no occurrence lies inside the fragment run
consumed together with an earlier occurrence), every textual occurrence of
each spelling present at its pass is replaced by the matching spelling of
`newName`, and every byte outside the occurrences — any trailing query string
included — is preserved byte-for-byte: the rewrite coincides with the
specification rewrite `specRenameRewrite`. -/
theorem claim_C1_amended (code fromDir : Str) (rm : List (Str × Str))
    (hcode : '#' ∉ code)
    (hv : ∀ pr ∈ rm, ∀ vp ∈ variantPairs fromDir pr.1 pr.2,
        vp.1 ≠ [] ∧ vp.1.head? ≠ some '?' ∧ '#' ∉ vp.2) :
    applyRenameMapToString code fromDir rm = specRenameRewrite code fromDir rm := by
  induction rm generalizing code with
  | nil => rfl
  | cons pr rs ih =>
    have hpr := hv pr (List.mem_cons_self _ _)
    have hfold := fold_replaceRE_eq_naive (variantPairs fromDir pr.1 pr.2) code hcode hpr
    simp only [applyRenameMapToString, specRenameRewrite, List.foldl_cons] at ih ⊢
    rw [hfold.1]
    exact ih _ hfold.2 (fun pr2 h2 => hv pr2 (List.mem_cons_of_mem _ h2))

/-- Witness for C1: the amended statement applied to a concrete bundle text
`img/a.png and img/a.png?v=1` seen from directory `css` with the single rename
`img/a.png -> img/a.webp`. -/
theorem claim_C1_witness :
    ('#' ∉ ("img/a.png and img/a.png?v=1".data : Str)) ∧
    applyRenameMapToString ("img/a.png and img/a.png?v=1".data) ("css".data)
        [(("img/a.png").data, ("img/a.webp").data)]
      = specRenameRewrite ("img/a.png and img/a.png?v=1".data) ("css".data)
        [(("img/a.png").data, ("img/a.webp").data)] :=
  ⟨by decide, claim_C1_amended _ _ _ (by decide) (by decide)⟩

/-- Counterexample to C1 as stated: in the text `img/a.png#img/a.png` seen
from directory `css`, the regex pass consumes `#img/a.png` as the fragment
suffix of the first occurrence, so the second pre-pass occurrence of the raw
spelling `img/a.png` is never replaced, while the claim requires every
pre-pass occurrence to be replaced (the specification rewrite produces
`img/a.webp#img/a.webp`). -/
theorem claim_C1_counterexample :
    applyRenameMapToString ("img/a.png#img/a.png".data) ("css".data)
        [(("img/a.png").data, ("img/a.webp").data)]
      = ("img/a.webp#img/a.png".data : Str)
    ∧ specRenameRewrite ("img/a.png#img/a.png".data) ("css".data)
        [(("img/a.png").data, ("img/a.webp").data)]
      = ("img/a.webp#img/a.webp".data : Str)
    ∧ applyRenameMapToString ("img/a.png#img/a.png".data) ("css".data)
          [(("img/a.png").data, ("img/a.webp").data)]
        ≠ specRenameRewrite ("img/a.png#img/a.png".data) ("css".data)
          [(("img/a.png").data, ("img/a.webp").data)] := by
  exact ⟨by decide, by decide, by decide⟩


/-!
### Opt-out marker machinery (`KEEP_FLAG`, lines 87, 185-269, 460-493)
-/

/-- `KEEP_FLAG` of `src/index.ts`. -/
def keepFlag : Str := "imgfmt=keep".data

/-- The marker as it must appear in a reference: `?imgfmt=keep`. -/
def keepMarker : Str := '?' :: keepFlag

/-- Generic split on a separator character, mirroring JavaScript
`String.prototype.split` with a one-character separator (always returns at
least one piece). -/
def splitOnChar (sep : Char) (s : Str) : List Str :=
  match s with
  | [] => [[]]
  | c :: t =>
    let rest := splitOnChar sep t
    if c = sep then [] :: rest
    else
      match rest with
      | [] => [[c]]
      | h :: t2 => (c :: h) :: t2

/-- Join pieces with a separator character (JavaScript `Array.join`). -/
def joinWith (sep : Char) : List Str → Str
  | [] => []
  | [x] => x
  | x :: y :: t => x ++ sep :: joinWith sep (y :: t)

/-- One query parameter is the opt-out pair when `split('=', 2)` yields key
`imgfmt` and value `keep` (the JavaScript two-limit split keeps only the first
two pieces, so `imgfmt=keep=x` also counts). -/
def isKeepPair (p : Str) : Bool :=
  let parts := splitOnChar '=' p
  parts.headD [] = ("imgfmt".data : Str) ∧ parts.tail.headD [] = ("keep".data : Str)

/-- `stripKeepFromQuery` of `src/index.ts` (lines 185-204): split off the part
after the first `#` (the JavaScript `split('#', 2)` drops everything from the
second `#` on), drop a leading `?`, remove empty and opt-out parameters, and
reassemble. -/
def stripKeepFromQuery (qsAndHash : Str) : Str :=
  let pieces := splitOnChar '#' qsAndHash
  let qsPartRaw := pieces.headD []
  let hashPart := pieces.tail.headD []
  let hasQ := qsPartRaw.head? = some '?'
  let qsPart := if hasQ then qsPartRaw.tail else qsPartRaw
  if qsPart = [] then
    (if hasQ then ['?'] else []) ++ (if hashPart ≠ [] then '#' :: hashPart else [])
  else
    let keptParams := ((splitOnChar '&' qsPart).filter (fun p => p ≠ [])).filter
      (fun p => ¬ isKeepPair p)
    let rebuilt := if keptParams ≠ [] then '?' :: joinWith '&' keptParams else []
    rebuilt ++ (if hashPart ≠ [] then '#' :: hashPart else [])

/-- First replacement pass of `applyKeepStripToString` (lines 255-261): the
shared reference regex for a candidate spelling, with callback
`fname + stripKeepFromQuery(qPart + hashPart)` when a query part was captured
and the identity otherwise. -/
def replaceKeepMainF (cand : Str) : Nat → Str → Str
  | 0, s => s
  | _ + 1, [] => []
  | f + 1, c :: t =>
    if cand ≠ [] ∧ cand.isPrefixOf (c :: t) then
      let rest := (c :: t).drop cand.length
      let su := consumeSuffix rest
      let rep :=
        if su.1.head? = some '?' then cand ++ stripKeepFromQuery su.1
        else cand ++ su.1
      rep ++ replaceKeepMainF cand f su.2
    else
      c :: replaceKeepMainF cand f t

/-- Wrapper fixing the fuel of `replaceKeepMainF` at the text length. -/
def replaceKeepMain (cand s : Str) : Str :=
  replaceKeepMainF cand s.length s

/-- The negative lookahead `(?![^"'\s)><#])` of the `simple` regex (line 263)
passes at end of input or when the next character is outside the class, i.e.
satisfies `qStop`. -/
def lookaheadOk : Option Char → Bool
  | none => true
  | some c => qStop c

/-- Second replacement pass of `applyKeepStripToString` (lines 263-264): the
regex `(cand)\?imgfmt=keep(?![^"'\s)><#])` replaced by the candidate alone. -/
def replaceSimpleF (cand : Str) : Nat → Str → Str
  | 0, s => s
  | _ + 1, [] => []
  | f + 1, c :: t =>
    let pat := cand ++ keepMarker
    if pat.isPrefixOf (c :: t) ∧ lookaheadOk ((c :: t).drop pat.length).head? then
      cand ++ replaceSimpleF cand f ((c :: t).drop pat.length)
    else
      c :: replaceSimpleF cand f t

/-- Wrapper fixing the fuel of `replaceSimpleF` at the text length. -/
def replaceSimple (cand s : Str) : Str :=
  replaceSimpleF cand s.length s

/-- JavaScript `Set` insertion: append if not already present. -/
def addUnique (acc : List Str) (x : Str) : List Str :=
  if x ∈ acc then acc else acc ++ [x]

/-- The candidate spellings of a raster name relative to a referencing
artifact directory, as built identically in `applyKeepStripToString`,
`applyKeepStripToMagicString` and the opt-out scan of `generateBundle`:
a `Set` seeded with the raw name and the relative spelling, plus the
`./`-prefixed relative spelling when it starts with neither `.` nor `/`. -/
def candidateList (fromDir fileName : Str) : List Str :=
  let rel := posixRelative fromDir fileName
  let base := addUnique (addUnique [] fileName) rel
  if rel.head? ≠ some '.' ∧ rel.head? ≠ some '/' then
    addUnique base ('.' :: '/' :: rel)
  else
    base

/-- `applyKeepStripToString` of `src/index.ts` (lines 240-269): for each kept
name and each candidate spelling, the main query-stripping regex pass followed
by the `simple` whole-marker pass. -/
def applyKeepStripToString (code : Str) (fromDir : Str) (keepList : List Str) : Str :=
  keepList.foldl
    (fun next fileName =>
      (candidateList fromDir fileName).foldl
        (fun acc cand => replaceSimple cand (replaceKeepMain cand acc)) next)
    code

/-- The opt-out scan of `generateBundle` (lines 462-493) for one raster name:
the name is kept when some text-like artifact contains some candidate spelling
immediately followed by `?imgfmt=keep`. -/
def shouldKeepName (textRefs : List (Str × Str)) (rasterName : Str) : Bool :=
  textRefs.any fun ta =>
    (candidateList (posixDirname ta.1) rasterName).any fun cand =>
      containsSub (cand ++ keepMarker) ta.2


theorem replaceKeepMainF_nil (cand : Str) (f : Nat) :
    replaceKeepMainF cand f [] = [] := by
  cases f <;> rfl

theorem replaceSimpleF_nil (cand : Str) (f : Nat) :
    replaceSimpleF cand f [] = [] := by
  cases f <;> rfl

/-- On `#`-free text the main keep-strip regex pass is the identity: the lazy
query group captures at most the single `?` character, and
`stripKeepFromQuery` maps `?` to `?`, so every replacement reproduces its
match byte-for-byte. -/
theorem replaceKeepMainF_id (cand : Str) :
    ∀ f : Nat, ∀ s : Str, '#' ∉ s → replaceKeepMainF cand f s = s := by
  intro f
  induction f with
  | zero => intro s _; rfl
  | succ m ih =>
    intro s hs
    cases s with
    | nil => rfl
    | cons c t =>
      by_cases hpre : cand ≠ [] ∧ cand.isPrefixOf (c :: t) = true
      · rw [replaceKeepMainF, if_pos hpre]
        have hsplit : cand ++ (c :: t).drop cand.length = c :: t :=
          prefix_append_drop (List.isPrefixOf_iff_prefix.mp hpre.2)
        have hrest : '#' ∉ (c :: t).drop cand.length :=
          fun hm => hs (List.drop_subset _ _ hm)
        cases hdrop : (c :: t).drop cand.length with
        | nil =>
          rw [hdrop] at hsplit
          simp only [consumeSuffix, List.head?_nil, replaceKeepMainF_nil]
          simp only [List.append_nil] at hsplit ⊢
          simpa using hsplit
        | cons d r =>
          rw [hdrop] at hsplit hrest
          by_cases hdq : d = '?'
          · subst hdq
            cases r with
            | nil =>
              have hsu : consumeSuffix ['?'] = (['?'], []) := by
                simp [consumeSuffix]
              simp only [hsu]
              have hq : stripKeepFromQuery ['?'] = ['?'] := by decide
              simp only [List.head?_cons, if_pos rfl, hq, replaceKeepMainF_nil]
              simpa using hsplit
            | cons e r2 =>
              have he : e ≠ '#' := by
                intro hh
                exact hrest (by simp [hh])
              have hsu : consumeSuffix ('?' :: e :: r2) = (['?'], e :: r2) := by
                simp [consumeSuffix, he]
              simp only [hsu]
              have hq : stripKeepFromQuery ['?'] = ['?'] := by decide
              have hrr : '#' ∉ (e :: r2) :=
                fun hm => hrest (List.mem_cons_of_mem _ hm)
              simp only [List.head?_cons, if_pos rfl, hq, ih (e :: r2) hrr]
              simpa using hsplit
          · have hd2 : d ≠ '#' := by
              intro hh
              exact hrest (by simp [hh])
            have hsu : consumeSuffix (d :: r) = ([], d :: r) := by
              simp [consumeSuffix, hdq, hd2]
            simp only [hsu]
            simp only [List.head?_nil, ih (d :: r) hrest]
            simpa using hsplit
      · rw [replaceKeepMainF, if_neg hpre]
        have htl : '#' ∉ t := fun hm => hs (List.mem_cons_of_mem _ hm)
        rw [ih t htl]

theorem replaceKeepMain_id {cand s : Str} (hs : '#' ∉ s) :
    replaceKeepMain cand s = s :=
  replaceKeepMainF_id cand s.length s hs

theorem keepMarker_ne_nil : keepMarker ≠ [] := by decide

theorem isPrefixAt_oob {pat s : Str} {i : Nat} (hp : pat ≠ [])
    (hi : s.length ≤ i) : isPrefixAt pat s i = false := by
  unfold isPrefixAt
  rw [List.drop_of_length_le hi]
  cases pat with
  | nil => exact absurd rfl hp
  | cons p ps => rfl

theorem isPrefixAt_bound {pat s : Str} {i : Nat} (hp : pat ≠ [])
    (h : isPrefixAt pat s i = true) : i ≤ s.length := by
  by_contra hc
  rw [isPrefixAt_oob hp (by omega)] at h
  exact Bool.false_ne_true h

theorem occList_eq_nil_iff {pat s : Str} (hp : pat ≠ []) :
    occList pat s = [] ↔ ∀ i, isPrefixAt pat s i = false := by
  constructor
  · intro h i
    by_cases hi : i ≤ s.length
    · have := List.filter_eq_nil.mp h i (by simp [List.mem_range]; omega)
      simpa using this
    · exact isPrefixAt_oob hp (by omega)
  · intro h
    apply List.filter_eq_nil.mpr
    intro i _
    simp [h i]

theorem isPrefixAt_shift {pat : Str} {c : Char} {t : Str} {i : Nat} :
    isPrefixAt pat (c :: t) (i + 1) = isPrefixAt pat t i := rfl

theorem isPrefixAt_append_lift {pat t : Str} (a : Str) {i : Nat}
    (h : isPrefixAt pat t i = true) :
    isPrefixAt pat (a ++ t) (a.length + i) = true := by
  induction a with
  | nil => simpa using h
  | cons x xs ihx =>
    have : xs.length + i + 1 = xs.length + 1 + i := by omega
    simpa [isPrefixAt_shift, Nat.succ_add] using ihx

theorem isPrefixAt_append_inner {a b s : Str} {i : Nat}
    (h : isPrefixAt (a ++ b) s i = true) :
    isPrefixAt b s (i + a.length) = true := by
  rcases isPrefixAt_iff_append.mp h with ⟨t, ht⟩
  apply isPrefixAt_iff_append.mpr
  refine ⟨t, ?_⟩
  have h1 : s.drop (i + a.length) = (s.drop i).drop a.length := by
    rw [List.drop_drop, Nat.add_comm]
  rw [h1, ht, List.append_assoc, List.drop_left]

/-- When no occurrence of `?imgfmt=keep` exists in the text, the `simple`
keep-strip regex pass is the identity. -/
theorem replaceSimpleF_id (cand : Str) :
    ∀ f : Nat, ∀ s : Str, (∀ i, isPrefixAt keepMarker s i = false) →
      replaceSimpleF cand f s = s := by
  intro f
  induction f with
  | zero => intro s _; rfl
  | succ m ih =>
    intro s hs
    cases s with
    | nil => rfl
    | cons c t =>
      have hnc : ¬ ((cand ++ keepMarker).isPrefixOf (c :: t) = true ∧
          lookaheadOk ((c :: t).drop (cand ++ keepMarker).length).head? = true) := by
        rintro ⟨h1, _⟩
        have h0 : isPrefixAt (cand ++ keepMarker) (c :: t) 0 = true := h1
        have h2 : isPrefixAt keepMarker (c :: t) (0 + cand.length) = true :=
          isPrefixAt_append_inner h0
        rw [hs (0 + cand.length)] at h2
        exact Bool.false_ne_true h2
      rw [replaceSimpleF, if_neg hnc]
      have htl : ∀ i, isPrefixAt keepMarker t i = false := by
        intro i
        have := hs (i + 1)
        rwa [isPrefixAt_shift] at this
      rw [ih t htl]

theorem replaceSimple_id {cand s : Str}
    (hs : ∀ i, isPrefixAt keepMarker s i = false) :
    replaceSimple cand s = s :=
  replaceSimpleF_id cand s.length s hs

/-- The `simple` keep-strip regex pass removes a uniquely placed exact-form
marker: scanning passes over `pre` (where no match can start), rewrites
`name?imgfmt=keep` to `name` when the lookahead accepts, and leaves the
marker-free `post` unchanged. -/
theorem replaceSimpleF_strips (name post : Str)
    (hlook : lookaheadOk post.head? = true)
    (hnopost : ∀ i, isPrefixAt keepMarker post i = false) :
    ∀ pre : Str, ∀ f : Nat,
      (pre ++ name ++ keepMarker ++ post).length ≤ f →
      (∀ i, i < pre.length →
        isPrefixAt (name ++ keepMarker) (pre ++ name ++ keepMarker ++ post) i = false) →
      replaceSimpleF name f (pre ++ name ++ keepMarker ++ post) = pre ++ name ++ post := by
  intro pre
  induction pre with
  | nil =>
    intro f hf _
    simp only [List.nil_append] at hf ⊢
    obtain ⟨c, t, hct⟩ : ∃ c t, name ++ keepMarker ++ post = c :: t := by
      cases hx : name ++ keepMarker ++ post with
      | nil =>
        exfalso
        rcases List.append_eq_nil.mp hx with ⟨h3, h4⟩
        rcases List.append_eq_nil.mp h3 with ⟨h5, h6⟩
        exact keepMarker_ne_nil h6
      | cons c t => exact ⟨c, t, rfl⟩
    obtain ⟨f2, rfl⟩ : ∃ f2, f = f2 + 1 := by
      refine ⟨f - 1, ?_⟩
      have h2 := congrArg List.length hct
      simp only [List.length_append, List.length_cons] at h2 hf
      omega
    rw [hct, replaceSimpleF]
    have hpre : (name ++ keepMarker).isPrefixOf (c :: t) = true := by
      rw [← hct]
      apply List.isPrefixOf_iff_prefix.mpr
      exact ⟨post, by rw [List.append_assoc]⟩
    have hdrop : (c :: t).drop (name ++ keepMarker).length = post := by
      rw [← hct, List.drop_left]
    rw [if_pos ⟨hpre, by rw [hdrop]; exact hlook⟩, hdrop]
    rw [replaceSimpleF_id name f2 post hnopost]
  | cons x pre2 ihx =>
    intro f hf hno
    obtain ⟨f2, rfl⟩ : ∃ f2, f = f2 + 1 := by
      refine ⟨f - 1, ?_⟩
      simp only [List.cons_append, List.length_cons] at hf
      omega
    simp only [List.cons_append]
    rw [replaceSimpleF]
    have h0 : isPrefixAt (name ++ keepMarker)
        ((x :: pre2) ++ name ++ keepMarker ++ post) 0 = false := by
      apply hno
      simp
    have hnc : ¬ ((name ++ keepMarker).isPrefixOf
          (x :: (pre2 ++ name ++ keepMarker ++ post)) = true ∧
        lookaheadOk ((x :: (pre2 ++ name ++ keepMarker ++ post)).drop
          (name ++ keepMarker).length).head? = true) := by
      rintro ⟨h1, _⟩
      have : isPrefixAt (name ++ keepMarker)
          ((x :: pre2) ++ name ++ keepMarker ++ post) 0 = true := by
        simpa [isPrefixAt] using h1
      rw [h0] at this
      exact Bool.false_ne_true this
    rw [if_neg hnc]
    have hf2 : (pre2 ++ name ++ keepMarker ++ post).length ≤ f2 := by
      simp only [List.cons_append, List.length_cons] at hf
      simpa using Nat.le_of_succ_le_succ hf
    have hno2 : ∀ i, i < pre2.length →
        isPrefixAt (name ++ keepMarker) (pre2 ++ name ++ keepMarker ++ post) i = false := by
      intro i hi
      have := hno (i + 1) (by simp; omega)
      simpa [List.cons_append, isPrefixAt_shift] using this
    rw [ihx f2 hf2 hno2]


theorem addUnique_cons (x : Str) (l : List Str) (z : Str) :
    ∃ l2, addUnique (x :: l) z = x :: l2 := by
  unfold addUnique
  by_cases h : z ∈ x :: l
  · exact ⟨l, by rw [if_pos h]⟩
  · exact ⟨l ++ [z], by rw [if_neg h]; simp⟩

theorem candidateList_head (fromDir name : Str) :
    ∃ rest, candidateList fromDir name = name :: rest := by
  simp only [candidateList]
  rw [show addUnique [] name = [name] from by simp [addUnique]]
  obtain ⟨l2, h2⟩ := addUnique_cons name [] (posixRelative fromDir name)
  rw [h2]
  split
  · exact addUnique_cons name l2 _
  · exact ⟨l2, rfl⟩

theorem keepMarker_no_hash : '#' ∉ keepMarker := by decide

/-- C2 (amended).  The opt-out marker is recognized only when `?imgfmt=keep`
immediately follows a candidate spelling as the whole beginning of the query
string, and during rewriting it is removed exactly when it constitutes the
entire query string and is followed by a reference delimiter (quote,
whitespace, `)`, `>`, `<`), a fragment, or the end of the text — in which case
the `?` is removed together with it.  First conjunct: for a `#`-free context
`pre ++ name ++ "?imgfmt=keep" ++ post` in which the marker occurs exactly
once and the lookahead accepts, `applyKeepStripToString` yields
`pre ++ name ++ post`.  Second conjunct: a candidate spelling immediately
followed by the marker in some text-like artifact puts the name in the
KeepSet. -/
theorem claim_C2_amended :
    (∀ fromDir name pre post : Str,
      '#' ∉ pre ++ name ++ post →
      lookaheadOk post.head? = true →
      occList keepMarker (pre ++ name ++ keepMarker ++ post)
        = [pre.length + name.length] →
      occList keepMarker (pre ++ name ++ post) = [] →
      applyKeepStripToString (pre ++ name ++ keepMarker ++ post) fromDir [name]
        = pre ++ name ++ post)
    ∧ (∀ textRefs : List (Str × Str), ∀ ta ∈ textRefs, ∀ name cand : Str,
      cand ∈ candidateList (posixDirname ta.1) name →
      containsSub (cand ++ keepMarker) ta.2 = true →
      shouldKeepName textRefs name = true) := by
  constructor
  · intro fromDir name pre post hhash hlook huniq hclean
    have hkm : keepMarker ≠ [] := keepMarker_ne_nil
    have hnoclean : ∀ i, isPrefixAt keepMarker (pre ++ name ++ post) i = false :=
      (occList_eq_nil_iff hkm).mp hclean
    have hh0 : '#' ∉ pre ++ name ++ keepMarker ++ post := by
      intro hm
      rcases List.mem_append.mp hm with hm1 | hm2
      · rcases List.mem_append.mp hm1 with hm3 | hm4
        · exact hhash (List.mem_append.mpr (Or.inl hm3))
        · exact keepMarker_no_hash hm4
      · exact hhash (List.mem_append.mpr (Or.inr hm2))
    obtain ⟨rest, hcand⟩ := candidateList_head fromDir name
    simp only [applyKeepStripToString, List.foldl_cons, List.foldl_nil]
    rw [hcand]
    simp only [List.foldl_cons]
    rw [replaceKeepMain_id hh0]
    have hnopre : ∀ i, i < pre.length →
        isPrefixAt (name ++ keepMarker) (pre ++ name ++ keepMarker ++ post) i = false := by
      intro i hi
      by_contra hcon
      have htrue : isPrefixAt (name ++ keepMarker)
          (pre ++ name ++ keepMarker ++ post) i = true := by
        revert hcon
        cases isPrefixAt (name ++ keepMarker) (pre ++ name ++ keepMarker ++ post) i <;> simp
      have h2 := isPrefixAt_append_inner htrue
      have hb := isPrefixAt_bound hkm h2
      have hmem : (i + name.length) ∈
          occList keepMarker (pre ++ name ++ keepMarker ++ post) :=
        mem_occList.mpr ⟨hb, h2⟩
      rw [huniq] at hmem
      simp only [List.mem_singleton] at hmem
      omega
    have hnopost : ∀ i, isPrefixAt keepMarker post i = false := by
      intro i
      by_contra hcon
      have htrue : isPrefixAt keepMarker post i = true := by
        revert hcon
        cases isPrefixAt keepMarker post i <;> simp
      have h2 : isPrefixAt keepMarker ((pre ++ name) ++ post)
          ((pre ++ name).length + i) = true :=
        isPrefixAt_append_lift (pre ++ name) htrue
      rw [hnoclean ((pre ++ name).length + i)] at h2
      exact Bool.false_ne_true h2
    have hstrip : replaceSimple name (pre ++ name ++ keepMarker ++ post)
        = pre ++ name ++ post := by
      unfold replaceSimple
      exact replaceSimpleF_strips name post hlook hnopost pre _ (Nat.le_refl _) hnopre
    rw [hstrip]
    have hfold : ∀ l : List Str,
        l.foldl (fun acc cand => replaceSimple cand (replaceKeepMain cand acc))
          (pre ++ name ++ post) = pre ++ name ++ post := by
      intro l
      induction l with
      | nil => rfl
      | cons z zs ihz =>
        simp only [List.foldl_cons]
        rw [replaceKeepMain_id hhash, replaceSimple_id hnoclean]
        exact ihz
    exact hfold rest
  · intro textRefs ta hta name cand hcand hcontains
    unfold shouldKeepName
    apply List.any_eq_true.mpr
    exact ⟨ta, hta, List.any_eq_true.mpr ⟨cand, hcand, hcontains⟩⟩

/-- Witness for C2: stripping the exact-form marker from `url(a.png?imgfmt=keep)`
seen from the bundle root, and recognizing `a.png?imgfmt=keep` in an HTML
artifact. -/
theorem claim_C2_witness :
    applyKeepStripToString
        ("url(".data ++ "a.png".data ++ keepMarker ++ ")".data) (".".data)
        [("a.png".data)]
      = "url(".data ++ "a.png".data ++ ")".data
    ∧ shouldKeepName [(("index.html").data, ("url(a.png?imgfmt=keep)").data)]
        ("a.png".data) = true :=
  ⟨claim_C2_amended.1 (".".data) ("a.png".data) ("url(".data) (")".data)
      (by decide) (by decide) (by decide) (by decide),
    claim_C2_amended.2 _ (("index.html").data, ("url(a.png?imgfmt=keep)").data)
      (by decide) ("a.png".data) ("a.png".data) (by decide) (by decide)⟩

/-- Counterexample to C2 as stated: when `imgfmt=keep` sits after another
query parameter (`img/a.png?v=1&imgfmt=keep`), the scan does not put the name
in the KeepSet (it only searches for the spelling immediately followed by
`?imgfmt=keep`); and when it sits before another parameter
(`a.png?imgfmt=keep&v=1`), `applyKeepStripToString` leaves the text unchanged
— the marker is not removed, contradicting removal "no matter where the
imgfmt=keep pair sits among other query parameters". -/
theorem claim_C2_counterexample :
    shouldKeepName
        [(("index.html").data, ("src=(img/a.png?v=1&imgfmt=keep)").data)]
        (("img/a.png").data) = false
    ∧ applyKeepStripToString (("url(a.png?imgfmt=keep&v=1)").data) (".".data)
        [("a.png".data)]
      = ("url(a.png?imgfmt=keep&v=1)").data
    ∧ containsSub keepMarker (("url(a.png?imgfmt=keep&v=1)").data) = true := by
  exact ⟨by decide, by decide, by decide⟩


/-!
### The MagicString keep-strip loop (`applyKeepStripToMagicString`, lines 305-348)

The main regex loop of `applyKeepStripToMagicString` is driven by repeated
`re.exec(originalCode)` calls on a stateful global regex: `exec` returns the
first match at or after `lastIndex` and advances `lastIndex` past it.  The
loop body reads the match, and — crucially — executes `continue` without
calling `exec` again when the captured query part is empty (line 331), so the
loop condition is re-tested against the *same* match object.
-/

/-- One match of the shared reference regex for a candidate spelling: start
index, the matched path text (capture 1), the query capture (capture 2, `?` or
empty) and the fragment capture (capture 3). -/
structure ReMatch where
  idx : Nat
  fname : Str
  qPart : Str
  hPart : Str
deriving DecidableEq

/-- `re.exec` on the global keep-strip regex: the first match of the candidate
spelling starting at or after `start`, with its captured query/fragment
suffix. -/
def execKeepStrip (cand s : Str) (start : Nat) : Option ReMatch :=
  match ((List.range (s.length + 1)).filter
      (fun i => decide (start ≤ i) && isPrefixAt cand s i)).head? with
  | none => none
  | some i =>
    let su := consumeSuffix (s.drop (i + cand.length))
    let q : Str := if su.1.head? = some '?' then ['?'] else []
    let h : Str := if su.1.head? = some '?' then su.1.tail else su.1
    some ⟨i, cand, q, h⟩

/-- The `while (m !== null)` loop of `applyKeepStripToMagicString` for one
candidate spelling, modelled with a fuel bound: the state is the current
match, the regex `lastIndex`, and the list of `ms.overwrite` edits recorded so
far.  `none` means the fuel was exhausted before the loop finished; a
terminating loop returns its edits for every sufficiently large fuel.  The
`continue` branch (empty query capture) re-enters the loop with the state
unchanged, exactly as the source does. -/
def keepMsLoopF (cand s : Str) :
    Nat → Option ReMatch → Nat → List (Nat × Nat × Str) →
    Option (List (Nat × Nat × Str))
  | 0, _, _, _ => none
  | _ + 1, none, _, edits => some edits
  | f + 1, some m, lastIdx, edits =>
    if m.qPart = [] then
      keepMsLoopF cand s f (some m) lastIdx edits
    else
      let stop := m.idx + m.fname.length + m.qPart.length + m.hPart.length
      let repl := m.fname ++ stripKeepFromQuery (m.qPart ++ m.hPart)
      keepMsLoopF cand s f (execKeepStrip cand s stop) stop
        (edits ++ [(m.idx, stop, repl)])

/-- The whole loop from its initial `exec` call. -/
def keepMsLoopRun (cand s : Str) (fuel : Nat) :
    Option (List (Nat × Nat × Str)) :=
  keepMsLoopF cand s fuel (execKeepStrip cand s 0) 0 []

theorem keepMsLoopF_stuck (cand s : Str) (m : ReMatch) (hq : m.qPart = []) :
    ∀ f : Nat, ∀ lastIdx : Nat, ∀ edits : List (Nat × Nat × Str),
      keepMsLoopF cand s f (some m) lastIdx edits = none := by
  intro f
  induction f with
  | zero => intro li e; rfl
  | succ g ih =>
    intro li e
    rw [keepMsLoopF, if_pos hq]
    exact ih li e

/-- C3: the claim states that, provided every codec call returns, the bundle
pass terminates for every input — in particular that keep-marker stripping
over code chunks terminates even when a kept name occurs in a chunk with no
query string after it.  The code violates this: in
`applyKeepStripToMagicString` the `continue` on an empty query capture never
advances the regex cursor, so on the chunk text `load(img/a.png)` with kept
name `img/a.png` the loop re-examines the same match forever — for every fuel
bound the loop model fails to finish. -/
theorem claim_C3_keepStrip_loop_diverges :
    ∀ fuel : Nat,
      keepMsLoopRun (("img/a.png").data) (("load(img/a.png)").data) fuel = none := by
  intro fuel
  have hm : execKeepStrip (("img/a.png").data) (("load(img/a.png)").data) 0
      = some ⟨5, ("img/a.png").data, [], []⟩ := by decide
  unfold keepMsLoopRun
  rw [hm]
  exact keepMsLoopF_stuck _ _ _ rfl fuel 0 []


/-!
### Markup postprocessing (`rebuildImgTag` lines 149-179, helpers lines 120-147,
350-396)
-/

/-- JavaScript `\w` (ASCII letters, digits, underscore). -/
def isWordChar (c : Char) : Bool := c.isAlphanum || c = '_'

/-- Lowercase a character list (JavaScript `toLowerCase` on the ASCII range). -/
def lowerStr (s : Str) : Str := s.map Char.toLower

/-- Case-insensitive match of `attr` at the head of `s`, followed by `\s*=`. -/
def matchAttrHere (attr : Str) (s : Str) : Bool :=
  decide (lowerStr (s.take attr.length) = attr) &&
  decide (((s.drop attr.length).dropWhile (fun c => isWsJS c)).head? = some '=')

/-- Word boundary `\b` immediately before an attribute name (whose first
character is a word character): start of string or a non-word predecessor. -/
def attrBoundary : Option Char → Bool
  | none => true
  | some p => !isWordChar p

/-- Scan for `\b<attr>\s*=` (case-insensitive), as in `hasAttr` and
`hasGenericAttr` of `src/index.ts` (both have the same body). -/
def hasAttrScan (attr : Str) : Option Char → Str → Bool
  | _, [] => false
  | prev, c :: t =>
    (attrBoundary prev && matchAttrHere attr (c :: t)) || hasAttrScan attr (some c) t

/-- `hasAttr`/`hasGenericAttr` of `src/index.ts`: the regex
`\b<attr>\s*=` (case-insensitive) tests positively on the string. -/
def hasAttr (s : Str) (attr : Str) : Bool := hasAttrScan attr none s

/-- Length of a quoted attribute value `q[^q]*q` at the head of `s`. -/
def matchQuoted (qc : Char) (s : Str) : Option Nat :=
  match s with
  | [] => none
  | c :: t =>
    if c = qc then
      let inner := t.takeWhile (fun x => x ≠ qc)
      if (t.drop inner.length).head? = some qc then some (inner.length + 2) else none
    else none

/-- Length of a bare attribute value `[^\s>]+` at the head of `s`. -/
def matchBare (s : Str) : Option Nat :=
  let run := s.takeWhile (fun c => !(isWsJS c) && c ≠ '>')
  if run = [] then none else some run.length

/-- Length of an attribute value `(?:"[^"]*"|'[^']*'|[^\s>]+)` at the head of
`s`, trying the alternation branches in order. -/
def matchAttrValue (s : Str) : Option Nat :=
  match matchQuoted dq s with
  | some n => some n
  | none =>
    match matchQuoted sq s with
    | some n => some n
    | none => matchBare s

/-- Length matched by `<attrName>\s*=\s*<value>` (attribute name
case-insensitive) at the head of `s`. -/
def matchAttrEq (attrName : Str) (s : Str) : Option Nat :=
  if lowerStr (s.take attrName.length) = attrName then
    let r2 := s.drop attrName.length
    let ws2 := r2.takeWhile (fun c => isWsJS c)
    let r3 := r2.drop ws2.length
    match r3.head? with
    | some '=' =>
      let r4 := r3.tail
      let ws3 := r4.takeWhile (fun c => isWsJS c)
      let r5 := r4.drop ws3.length
      match matchAttrValue r5 with
      | none => none
      | some vl => some (attrName.length + ws2.length + 1 + ws3.length + vl)
    | _ => none
  else none

/-- Length matched by `\s+(?:width|height)\s*=\s*<value>` at the head of `s`
(the `stripSizeAttrs` regex, case-insensitive). -/
def matchSizeAttrAt (s : Str) : Option Nat :=
  let ws := s.takeWhile (fun c => isWsJS c)
  if ws = [] then none
  else
    let r1 := s.drop ws.length
    match matchAttrEq ("width".data) r1 with
    | some n => some (ws.length + n)
    | none =>
      match matchAttrEq ("height".data) r1 with
      | some n => some (ws.length + n)
      | none => none

/-- `stripSizeAttrs` of `src/index.ts`: delete every match of the size
attribute regex, scanning left to right. -/
def stripSizeAttrsF : Nat → Str → Str
  | 0, s => s
  | _ + 1, [] => []
  | f + 1, c :: t =>
    match matchSizeAttrAt (c :: t) with
    | some n => stripSizeAttrsF f ((c :: t).drop n)
    | none => c :: stripSizeAttrsF f t

/-- Wrapper fixing the fuel of `stripSizeAttrsF` at the text length. -/
def stripSizeAttrs (s : Str) : Str := stripSizeAttrsF s.length s

/-- `normalizeSrcForMatch` of `src/index.ts`: `src.split(/[?#]/)[0]`. -/
def normalizeSrcForMatch (src : Str) : Str :=
  src.takeWhile (fun c => c ≠ '?' && c ≠ '#')

/-- The dimension map: final artifact name to intrinsic (width, height), in
insertion order (JavaScript `Map`). -/
abbrev DimMap := List (Str × (Nat × Nat))

/-- JavaScript `Map.get`. -/
def dmGet (dm : DimMap) (k : Str) : Option (Nat × Nat) :=
  (dm.find? (fun e => decide (e.1 = k))).map Prod.snd

/-- `matchFinalName` of `src/index.ts`: the first dimension-map key that the
normalized src ends with (raw, `./`-prefixed, or `/`-prefixed). -/
def matchFinalName (dm : DimMap) (src : Str) : Option Str :=
  let cleaned := normalizeSrcForMatch src
  (dm.map Prod.fst).find? (fun fn =>
    fn.isSuffixOf cleaned ||
    ('.' :: '/' :: fn).isSuffixOf cleaned ||
    ('/' :: fn).isSuffixOf cleaned)

/-- Decimal rendering of a dimension, as interpolated by the template
literals. -/
def natToStr (n : Nat) : Str := (toString n).data

/-- `rebuildImgTag` of `src/index.ts` (lines 149-179), acting on the capture
groups of the `<img>` tag regex. -/
def rebuildImgTag (htmlSizeMode : Str) (dm : DimMap) (full preAttrs : Str)
    (quote : Char) (src postAttrs selfClose : Str) : Str :=
  match matchFinalName dm src with
  | none => full
  | some finalName =>
    match dmGet dm finalName with
    | none => full
    | some dims =>
      if htmlSizeMode = ("overwrite".data : Str) then
        let newPre := stripSizeAttrs preAttrs
        let newPost := stripSizeAttrs postAttrs
        "<img ".data ++ newPre ++ "src=".data ++ [quote] ++ src ++ [quote] ++
          newPost ++ " width=".data ++ [dq] ++ natToStr dims.1 ++ [dq] ++
          " height=".data ++ [dq] ++ natToStr dims.2 ++ [dq] ++ selfClose ++ ">".data
      else
        let hasW := hasAttr (preAttrs ++ postAttrs) ("width".data)
        let hasH := hasAttr (preAttrs ++ postAttrs) ("height".data)
        if hasW && hasH then full
        else
          let extraW :=
            if hasW then [] else " width=".data ++ [dq] ++ natToStr dims.1 ++ [dq]
          let extraH :=
            if hasH then [] else " height=".data ++ [dq] ++ natToStr dims.2 ++ [dq]
          "<img ".data ++ preAttrs ++ "src=".data ++ [quote] ++ src ++ [quote] ++
            postAttrs ++ extraW ++ extraH ++ selfClose ++ ">".data

/-- C4 (amended).  In `add-only` mode, for an `<img>` element whose src
resolves to a dimension entry: when both `width` and `height` are present the
element is returned unmodified; when one of them is missing, the element is
rebuilt with exactly the missing attribute(s) appended — having one attribute
present does not prevent the other from being added. -/
theorem claim_C4_amended (dm : DimMap) (full preAttrs : Str) (quote : Char)
    (src postAttrs selfClose : Str) (fn : Str) (dims : Nat × Nat)
    (hfn : matchFinalName dm src = some fn)
    (hdims : dmGet dm fn = some dims) :
    (hasAttr (preAttrs ++ postAttrs) ("width".data) = true →
      hasAttr (preAttrs ++ postAttrs) ("height".data) = true →
      rebuildImgTag ("add-only".data) dm full preAttrs quote src postAttrs selfClose
        = full)
    ∧ (hasAttr (preAttrs ++ postAttrs) ("width".data) = true →
      hasAttr (preAttrs ++ postAttrs) ("height".data) = false →
      rebuildImgTag ("add-only".data) dm full preAttrs quote src postAttrs selfClose
        = "<img ".data ++ preAttrs ++ "src=".data ++ [quote] ++ src ++ [quote] ++
            postAttrs ++ (" height=".data ++ [dq] ++ natToStr dims.2 ++ [dq]) ++
            selfClose ++ ">".data)
    ∧ (hasAttr (preAttrs ++ postAttrs) ("width".data) = false →
      hasAttr (preAttrs ++ postAttrs) ("height".data) = true →
      rebuildImgTag ("add-only".data) dm full preAttrs quote src postAttrs selfClose
        = "<img ".data ++ preAttrs ++ "src=".data ++ [quote] ++ src ++ [quote] ++
            postAttrs ++ (" width=".data ++ [dq] ++ natToStr dims.1 ++ [dq]) ++
            selfClose ++ ">".data)
    ∧ (hasAttr (preAttrs ++ postAttrs) ("width".data) = false →
      hasAttr (preAttrs ++ postAttrs) ("height".data) = false →
      rebuildImgTag ("add-only".data) dm full preAttrs quote src postAttrs selfClose
        = "<img ".data ++ preAttrs ++ "src=".data ++ [quote] ++ src ++ [quote] ++
            postAttrs ++ (" width=".data ++ [dq] ++ natToStr dims.1 ++ [dq]) ++
            (" height=".data ++ [dq] ++ natToStr dims.2 ++ [dq]) ++
            selfClose ++ ">".data) := by
  have hmode : ¬ (("add-only".data : Str) = ("overwrite".data : Str)) := by decide
  refine ⟨?_, ?_, ?_, ?_⟩ <;>
    · intro hw hh
      simp only [rebuildImgTag, hfn, hdims, if_neg hmode, hw, hh]
      simp

/-- Witness for C4: a concrete element with both attributes present is
returned untouched, via the amended theorem. -/
theorem claim_C4_witness :
    rebuildImgTag ("add-only".data) [(("a.webp").data, (800, 600))]
        ("<img src=\"a.webp\" width=\"1\" height=\"2\">".data) ([])
        dq ("a.webp".data) (" width=\"1\" height=\"2\"".data) ([])
      = ("<img src=\"a.webp\" width=\"1\" height=\"2\">".data : Str) :=
  (claim_C4_amended [(("a.webp").data, (800, 600))]
      ("<img src=\"a.webp\" width=\"1\" height=\"2\">".data) ([]) dq ("a.webp".data)
      (" width=\"1\" height=\"2\"".data) ([]) ("a.webp".data) (800, 600)
      (by decide) (by decide)).1 (by decide) (by decide)

/-- Counterexample to C4 as stated: in `add-only` mode, an `<img>` whose
attributes contain `width` but not `height` is *not* left unmodified — the
missing `height` is appended (the claim requires the element to be left
entirely unmodified when either attribute is present). -/
theorem claim_C4_counterexample :
    rebuildImgTag ("add-only".data) [(("a.webp").data, (800, 600))]
        ("<img src=\"a.webp\" width=\"1\">".data) ([])
        dq ("a.webp".data) (" width=\"1\"".data) ([])
      = ("<img src=\"a.webp\" width=\"1\" height=\"600\">".data : Str)
    ∧ rebuildImgTag ("add-only".data) [(("a.webp").data, (800, 600))]
        ("<img src=\"a.webp\" width=\"1\">".data) ([])
        dq ("a.webp".data) (" width=\"1\"".data) ([])
      ≠ ("<img src=\"a.webp\" width=\"1\">".data : Str) := by
  exact ⟨by decide, by decide⟩


/-!
### `<source>` media-type correction (`extToMime`, `pickMimeFromSrcset`,
`stripNamedAttr`, lines 350-396 and 619-647)
-/

/-- JavaScript `String.prototype.trim` on the ASCII whitespace range. -/
def trimStr (s : Str) : Str :=
  ((s.dropWhile (fun c => isWsJS c)).reverse.dropWhile (fun c => isWsJS c)).reverse

/-- `extToMime` of `src/index.ts`: the fixed extension-to-media-type table. -/
def extToMime (ext : Str) : Option Str :=
  let e := lowerStr ext
  if e = ("webp".data : Str) then some ("image/webp".data)
  else if e = ("png".data : Str) then some ("image/png".data)
  else if e = ("avif".data : Str) then some ("image/avif".data)
  else if e = ("jpg".data : Str) ∨ e = ("jpeg".data : Str) then some ("image/jpeg".data)
  else if e = ("gif".data : Str) then some ("image/gif".data)
  else if e = ("svg".data : Str) then some ("image/svg+xml".data)
  else if e = ("bmp".data : Str) then some ("image/bmp".data)
  else if e = ("tif".data : Str) ∨ e = ("tiff".data : Str) then some ("image/tiff".data)
  else if e = ("heif".data : Str) then some ("image/heif".data)
  else if e = ("heic".data : Str) then some ("image/heic".data)
  else if e = ("jp2".data : Str) then some ("image/jp2".data)
  else none

/-- The `\.([a-z0-9]+)$` extension of a cleaned URL: the maximal trailing
alphanumeric run, provided it is non-empty and preceded by a dot. -/
def extOfUrl (cleaned : Str) : Option Str :=
  let rev := cleaned.reverse
  let run := rev.takeWhile (fun c => c.isAlphanum)
  if run = [] then none
  else
    match (rev.drop run.length).head? with
    | some '.' => some run.reverse
    | _ => none

/-- The media type contributed by one srcset entry: take the first
whitespace-delimited token, strip query/fragment, map its extension. -/
def entryMime (entry : Str) : Option Str :=
  let urlPart := entry.takeWhile (fun c => !(isWsJS c))
  let cleaned := urlPart.takeWhile (fun c => c ≠ '?' && c ≠ '#')
  match extOfUrl cleaned with
  | none => none
  | some ext => extToMime ext

/-- The entry list of a srcset attribute: split on `,`, trim, drop empties. -/
def srcsetEntries (srcset : Str) : List Str :=
  ((splitOnChar ',' srcset).map trimStr).filter (fun e => e ≠ [])

/-- `pickMimeFromSrcset` of `src/index.ts`: the first entry whose extension
maps to a media type decides (the loop returns on the first non-null mime). -/
def pickMimeFromSrcset (srcset : Str) : Option Str :=
  (srcsetEntries srcset).findSome? entryMime

/-- The media type the claim describes: derived from the first listed URL
only (modelled from the claim sentence "derives the media type from the first
listed URL of its srcset attribute"; unrecognized first extension leaves the
element untouched). -/
def specPickMimeFirstUrl (srcset : Str) : Option Str :=
  match srcsetEntries srcset with
  | [] => none
  | e :: _ => entryMime e

/-- Group-1 length and total length of a match of
`(^|\s+)<attrName>\s*=\s*<value>` at the head of `s` (the `stripNamedAttr`
regex); `^` participates only at the start of the string and is tried before
the `\s+` alternative. -/
def matchNamedAttrAt (attrName : Str) (atStart : Bool) (s : Str) :
    Option (Nat × Nat) :=
  let viaWs : Option (Nat × Nat) :=
    (let ws := s.takeWhile (fun c => isWsJS c)
     if ws = [] then none
     else
       match matchAttrEq attrName (s.drop ws.length) with
       | some n => some (ws.length, ws.length + n)
       | none => none)
  if atStart then
    match matchAttrEq attrName s with
    | some n => some (0, n)
    | none => viaWs
  else viaWs

/-- `stripNamedAttr` of `src/index.ts`: replace every match by its group 1
(the leading whitespace run, or nothing at the start of the string). -/
def stripNamedAttrF (attrName : Str) : Nat → Bool → Str → Str
  | 0, _, s => s
  | f + 1, atStart, s =>
    match s with
    | [] => []
    | c :: t =>
      match matchNamedAttrAt attrName atStart (c :: t) with
      | some (g1, n) => (c :: t).take g1 ++ stripNamedAttrF attrName f false ((c :: t).drop n)
      | none => c :: stripNamedAttrF attrName f false t

/-- Wrapper fixing the fuel of `stripNamedAttrF` at the text length. -/
def stripNamedAttr (s : Str) (attrName : Str) : Str :=
  stripNamedAttrF attrName s.length true s

/-- The `<source>` tag replacement callback of `generateBundle`
(lines 621-643), acting on the capture groups of the `<source>` regex. -/
def rebuildSourceTag (full preAttrs : Str) (quote : Char)
    (srcset postAttrs selfClose : Str) : Str :=
  match pickMimeFromSrcset srcset with
  | none => full
  | some desiredMime =>
    if hasAttr (preAttrs ++ postAttrs) ("type".data) then
      "<source ".data ++ stripNamedAttr preAttrs ("type".data) ++ "srcset=".data ++
        [quote] ++ srcset ++ [quote] ++ stripNamedAttr postAttrs ("type".data) ++
        " type=".data ++ [dq] ++ desiredMime ++ [dq] ++ selfClose ++ ">".data
    else
      "<source ".data ++ preAttrs ++ "srcset=".data ++ [quote] ++ srcset ++
        [quote] ++ postAttrs ++ " type=".data ++ [dq] ++ desiredMime ++ [dq] ++
        selfClose ++ ">".data

theorem splitOnChar_no_sep {sep : Char} {a : Str} (h : sep ∉ a) :
    splitOnChar sep a = [a] := by
  induction a with
  | nil => rfl
  | cons x a2 iha =>
    have hx : x ≠ sep := fun hh => h (by simp [hh])
    have h2 : sep ∉ a2 := fun hm => h (List.mem_cons_of_mem _ hm)
    simp only [splitOnChar, iha h2, if_neg hx]

theorem splitOnChar_append_sep {sep : Char} {a : Str} (b : Str) (h : sep ∉ a) :
    splitOnChar sep (a ++ sep :: b) = a :: splitOnChar sep b := by
  induction a with
  | nil => simp [splitOnChar]
  | cons x a2 iha =>
    have hx : x ≠ sep := fun hh => h (by simp [hh])
    have h2 : sep ∉ a2 := fun hm => h (List.mem_cons_of_mem _ hm)
    simp only [List.cons_append, splitOnChar, List.append_eq, iha h2, if_neg hx]

theorem entryMime_nil : entryMime [] = none := rfl

/-- C8 (amended).  The media type is derived from the first listed srcset URL
whose extension is recognized, not from the first listed URL alone: an entry
with an unrecognized extension is skipped and later entries are consulted; the
element is left untouched exactly when no entry yields a media type. -/
theorem claim_C8_amended :
    (∀ full preAttrs : Str, ∀ quote : Char, ∀ srcset postAttrs selfClose : Str,
      pickMimeFromSrcset srcset = none →
      rebuildSourceTag full preAttrs quote srcset postAttrs selfClose = full)
    ∧ (∀ u rest : Str, ',' ∉ u → entryMime (trimStr u) = none →
      pickMimeFromSrcset (u ++ ',' :: rest) = pickMimeFromSrcset rest)
    ∧ (∀ u rest : Str, ∀ m : Str, ',' ∉ u → entryMime (trimStr u) = some m →
      pickMimeFromSrcset (u ++ ',' :: rest) = some m)
    ∧ (∀ u : Str, ',' ∉ u → pickMimeFromSrcset u = entryMime (trimStr u)) := by
  refine ⟨?_, ?_, ?_, ?_⟩
  · intro full preAttrs quote srcset postAttrs selfClose hnone
    simp only [rebuildSourceTag, hnone]
  · intro u rest hc hmime
    have hsplit := splitOnChar_append_sep rest hc
    by_cases ht : trimStr u = []
    · simp [pickMimeFromSrcset, srcsetEntries, hsplit, ht]
    · simp [pickMimeFromSrcset, srcsetEntries, hsplit, ht, List.findSome?_cons, hmime]
  · intro u rest m hc hmime
    have hsplit := splitOnChar_append_sep rest hc
    have ht : trimStr u ≠ [] := by
      intro hh
      rw [hh, entryMime_nil] at hmime
      exact Option.noConfusion hmime
    simp [pickMimeFromSrcset, srcsetEntries, hsplit, ht, List.findSome?_cons, hmime]
  · intro u hc
    have hsplit := splitOnChar_no_sep hc
    by_cases ht : trimStr u = []
    · simp [pickMimeFromSrcset, srcsetEntries, hsplit, ht, entryMime_nil]
    · cases hfx : entryMime (trimStr u) with
      | none => simp [pickMimeFromSrcset, srcsetEntries, hsplit, ht, List.findSome?_cons, hfx]
      | some m => simp [pickMimeFromSrcset, srcsetEntries, hsplit, ht, List.findSome?_cons, hfx]

/-- Witness for C8: a srcset whose only URL has an unrecognized extension
leaves the element untouched, and a recognized second entry decides the mime
after an unrecognized first entry is skipped. -/
theorem claim_C8_witness :
    rebuildSourceTag ("<source srcset=\"/x.foo 1x\">".data) ([]) dq
        ("/x.foo 1x".data) ([]) ([])
      = ("<source srcset=\"/x.foo 1x\">".data : Str)
    ∧ pickMimeFromSrcset ("/a.foo 1x".data ++ ',' :: " /b.png 2x".data)
      = some ("image/png".data) :=
  ⟨claim_C8_amended.1 ("<source srcset=\"/x.foo 1x\">".data) ([]) dq
      ("/x.foo 1x".data) ([]) ([]) (by decide),
    by
      rw [claim_C8_amended.2.1 ("/a.foo 1x".data) (" /b.png 2x".data)
        (by decide) (by decide)]
      rw [claim_C8_amended.2.2.2 (" /b.png 2x".data) (by decide)]
      decide⟩

/-- Counterexample to C8 as stated: for
`srcset="/a.foo 1x, /b.png 2x"` the first listed URL has an unrecognized
extension, so per the claim the element must be left untouched; the code
instead falls through to the second URL, derives `image/png`, and rewrites
the element. -/
theorem claim_C8_counterexample :
    pickMimeFromSrcset ("/a.foo 1x, /b.png 2x".data) = some ("image/png".data)
    ∧ specPickMimeFirstUrl ("/a.foo 1x, /b.png 2x".data) = none
    ∧ rebuildSourceTag ("<source srcset=\"/a.foo 1x, /b.png 2x\">".data) ([]) dq
        ("/a.foo 1x, /b.png 2x".data) ([]) ([])
      ≠ ("<source srcset=\"/a.foo 1x, /b.png 2x\">".data : Str) := by
  exact ⟨by decide, by decide, by decide⟩


/-!
### Content hashing (`computeContentHash`, `addHashToFileName`, lines 398-408)

`createHash('sha256')` is Node's SHA-256; it is modelled here by an
executable implementation of FIPS 180-4 over byte lists, with 32-bit words
as `Nat` reduced modulo `2^32`.
-/

/-- Truncation to a 32-bit word. -/
def w32 (x : Nat) : Nat := x % 4294967296

/-- Right rotation of a 32-bit word. -/
def rotr32 (n x : Nat) : Nat := (x >>> n) + (x % (2 ^ n)) * 2 ^ (32 - n)

def bigSigma0 (x : Nat) : Nat := rotr32 2 x ^^^ rotr32 13 x ^^^ rotr32 22 x

def bigSigma1 (x : Nat) : Nat := rotr32 6 x ^^^ rotr32 11 x ^^^ rotr32 25 x

def smallSigma0 (x : Nat) : Nat := rotr32 7 x ^^^ rotr32 18 x ^^^ (x >>> 3)

def smallSigma1 (x : Nat) : Nat := rotr32 17 x ^^^ rotr32 19 x ^^^ (x >>> 10)

def chFn (x y z : Nat) : Nat := (x &&& y) ^^^ ((4294967295 ^^^ x) &&& z)

def majFn (x y z : Nat) : Nat := (x &&& y) ^^^ (x &&& z) ^^^ (y &&& z)

/-- The SHA-256 round constants. -/
def K256 : List Nat :=
  [1116352408, 1899447441, 3049323471, 3921009573, 961987163,
   1508970993, 2453635748, 2870763221, 3624381080, 310598401,
   607225278, 1426881987, 1925078388, 2162078206, 2614888103,
   3248222580, 3835390401, 4022224774, 264347078, 604807628,
   770255983, 1249150122, 1555081692, 1996064986, 2554220882,
   2821834349, 2952996808, 3210313671, 3336571891, 3584528711,
   113926993, 338241895, 666307205, 773529912, 1294757372,
   1396182291, 1695183700, 1986661051, 2177026350, 2456956037,
   2730485921, 2820302411, 3259730800, 3345764771, 3516065817,
   3600352804, 4094571909, 275423344, 430227734, 506948616,
   659060556, 883997877, 958139571, 1322822218, 1537002063,
   1747873779, 1955562222, 2024104815, 2227730452, 2361852424,
   2428436474, 2756734187, 3204031479, 3329325298]

/-- SHA-256 working state (eight 32-bit words). -/
structure Hash8 where
  a : Nat
  b : Nat
  c : Nat
  d : Nat
  e : Nat
  f : Nat
  g : Nat
  h : Nat

/-- The initial SHA-256 state. -/
def initH : Hash8 :=
  ⟨1779033703, 3144134277, 1013904242, 2773480762,
   1359893119, 2600822924, 528734635, 1541459225⟩

/-- Big-endian 64-bit length field of the padding. -/
def lenBytes64 (bitLen : Nat) : List Nat :=
  [bitLen >>> 56 % 256, bitLen >>> 48 % 256, bitLen >>> 40 % 256,
   bitLen >>> 32 % 256, bitLen >>> 24 % 256, bitLen >>> 16 % 256,
   bitLen >>> 8 % 256, bitLen % 256]

/-- SHA-256 padding: `0x80`, zeros to 56 mod 64, then the bit length. -/
def sha256pad (msg : List Nat) : List Nat :=
  let len := msg.length
  let padZeros := (55 + 64 - len % 64) % 64
  msg ++ [128] ++ List.replicate padZeros 0 ++ lenBytes64 (len * 8)

/-- Big-endian packing of bytes into 32-bit words. -/
def bytesToWords : List Nat → List Nat
  | b0 :: b1 :: b2 :: b3 :: rest =>
    (b0 % 256 * 16777216 + b1 % 256 * 65536 + b2 % 256 * 256 + b3 % 256)
      :: bytesToWords rest
  | _ => []

/-- 64-byte blocks of the padded message (fuel-bounded iteration). -/
def toBlocksF : Nat → List Nat → List (List Nat)
  | 0, _ => []
  | _, [] => []
  | f + 1, bs => bs.take 64 :: toBlocksF f (bs.drop 64)

def toBlocks (bs : List Nat) : List (List Nat) := toBlocksF bs.length bs

/-- Message-schedule extension: append one word per step (48 steps). -/
def extendSchedule : Nat → List Nat → List Nat
  | 0, ws => ws
  | f + 1, ws =>
    let n := ws.length
    let word := w32 (ws.getD (n - 16) 0 + smallSigma0 (ws.getD (n - 15) 0)
      + ws.getD (n - 7) 0 + smallSigma1 (ws.getD (n - 2) 0))
    extendSchedule f (ws ++ [word])

/-- One SHA-256 round, fed a (round constant, schedule word) pair. -/
def roundStep (st : Hash8) (kw : Nat × Nat) : Hash8 :=
  let t1 := w32 (st.h + bigSigma1 st.e + chFn st.e st.f st.g + kw.1 + kw.2)
  let t2 := w32 (bigSigma0 st.a + majFn st.a st.b st.c)
  ⟨w32 (t1 + t2), st.a, st.b, st.c, w32 (st.d + t1), st.e, st.f, st.g⟩

/-- Process one 64-byte block. -/
def processBlock (st : Hash8) (block : List Nat) : Hash8 :=
  let ws := extendSchedule 48 (bytesToWords block)
  let fin := (K256.zip ws).foldl roundStep st
  ⟨w32 (st.a + fin.a), w32 (st.b + fin.b), w32 (st.c + fin.c), w32 (st.d + fin.d),
   w32 (st.e + fin.e), w32 (st.f + fin.f), w32 (st.g + fin.g), w32 (st.h + fin.h)⟩

/-- Big-endian bytes of a 32-bit word. -/
def wordBytes (w : Nat) : List Nat :=
  [w >>> 24 % 256, w >>> 16 % 256, w >>> 8 % 256, w % 256]

/-- The eight words of a final state. -/
def digestWords (st : Hash8) : List Nat :=
  [st.a, st.b, st.c, st.d, st.e, st.f, st.g, st.h]

/-- SHA-256 digest bytes of a byte-list message. -/
def sha256bytes (msg : List Nat) : List Nat :=
  let fin := (toBlocks (sha256pad msg)).foldl processBlock initH
  ((digestWords fin).map wordBytes).join

/-- Lowercase hexadecimal digit. -/
def hexDigit (n : Nat) : Char :=
  if n < 10 then Char.ofNat (48 + n) else Char.ofNat (87 + n)

/-- Lowercase hexadecimal rendering of one byte. -/
def byteToHex (b : Nat) : Str := [hexDigit (b / 16 % 16), hexDigit (b % 16)]

/-- `createHash('sha256').update(buffer).digest('hex')`: the lowercase
hexadecimal SHA-256 digest. -/
def sha256hex (msg : List Nat) : Str :=
  (sha256bytes msg).foldr (fun b acc => byteToHex b ++ acc) []

/-- `computeContentHash` of `src/index.ts`: the hex digest truncated to
`length` characters, clamped to `[1, full.length]`. -/
def computeContentHash (buffer : List Nat) (length : Nat) : Str :=
  let full := sha256hex buffer
  let len := max 1 (min length full.length)
  full.take len

/-- `posix.parse`-style split into directory and base name. -/
def parseDir (p : Str) : Str × Str :=
  let base := (p.reverse.takeWhile (fun c => c ≠ '/')).reverse
  if base.length = p.length then ([], p)
  else (p.take (p.length - base.length - 1), base)

/-- `posix.parse`-style split of a base name into stem and extension (the
extension starts at the last dot, except for a leading-dot-only name). -/
def parseExt (base : Str) : Str × Str :=
  let run := base.reverse.takeWhile (fun c => c ≠ '.')
  if run.length = base.length then (base, [])
  else
    let dotIdx := base.length - run.length - 1
    if dotIdx = 0 then (base, [])
    else (base.take dotIdx, '.' :: run.reverse)

/-- `addHashToFileName` of `src/index.ts` with the default `-` delimiter. -/
def addHashToFileName (fileName hash : Str) : Str :=
  let db := parseDir fileName
  let se := parseExt db.2
  let newBase := se.1 ++ '-' :: hash ++ se.2
  if db.1 = [] then newBase else db.1 ++ '/' :: newBase

/-- Lowercase hexadecimal digit test. -/
def isLowerHexDigit (c : Char) : Bool :=
  (decide ('0' ≤ c) && decide (c ≤ '9')) || (decide ('a' ≤ c) && decide (c ≤ 'f'))

theorem hexDigit_isLowerHex : ∀ n : Nat, n < 16 → isLowerHexDigit (hexDigit n) = true := by
  decide

theorem byteToHex_isLowerHex {b : Nat} {c : Char} (h : c ∈ byteToHex b) :
    isLowerHexDigit c = true := by
  rcases List.mem_cons.mp h with h1 | h2
  · subst h1
    exact hexDigit_isLowerHex _ (Nat.mod_lt _ (by omega))
  · rcases List.mem_cons.mp h2 with h3 | h4
    · subst h3
      exact hexDigit_isLowerHex _ (Nat.mod_lt _ (by omega))
    · exact absurd h4 (List.not_mem_nil c)

theorem mem_hexFoldr {bs : List Nat} {c : Char}
    (h : c ∈ bs.foldr (fun b acc => byteToHex b ++ acc) []) :
    ∃ b ∈ bs, c ∈ byteToHex b := by
  induction bs with
  | nil => exact absurd h (List.not_mem_nil c)
  | cons b rest ihb =>
    simp only [List.foldr_cons] at h
    rcases List.mem_append.mp h with h1 | h2
    · exact ⟨b, List.mem_cons_self _ _, h1⟩
    · rcases ihb h2 with ⟨b2, hb2, hc2⟩
      exact ⟨b2, List.mem_cons_of_mem _ hb2, hc2⟩

theorem hexFoldr_length (bs : List Nat) :
    (bs.foldr (fun b acc => byteToHex b ++ acc) []).length = 2 * bs.length := by
  induction bs with
  | nil => rfl
  | cons b rest ihb =>
    have h2 : (byteToHex b).length = 2 := rfl
    simp only [List.foldr_cons, List.length_append, ihb, h2, List.length_cons]
    omega

theorem sha256bytes_length (msg : List Nat) : (sha256bytes msg).length = 32 := by
  simp [sha256bytes, digestWords, wordBytes]

theorem sha256hex_length (msg : List Nat) : (sha256hex msg).length = 64 := by
  unfold sha256hex
  rw [hexFoldr_length, sha256bytes_length]

/-- C7.  The content hash equals the lowercase hexadecimal SHA-256 digest of
the byte payload truncated to `hashLength` characters, with `hashLength`
clamped to `[1, 64]` where 64 is the full digest length; every digest
character is a lowercase hexadecimal digit; and the final hashed name is a
deterministic function of the bytes and the configured length. -/
theorem claim_C7_contentHash :
    (∀ buffer : List Nat, ∀ len : Nat,
      computeContentHash buffer len = (sha256hex buffer).take (max 1 (min len 64)))
    ∧ (∀ buffer : List Nat, (sha256hex buffer).length = 64)
    ∧ (∀ buffer : List Nat, ∀ c ∈ sha256hex buffer, isLowerHexDigit c = true)
    ∧ (∀ fileName : Str, ∀ b1 b2 : List Nat, ∀ n1 n2 : Nat, b1 = b2 → n1 = n2 →
      addHashToFileName fileName (computeContentHash b1 n1)
        = addHashToFileName fileName (computeContentHash b2 n2)) := by
  refine ⟨?_, sha256hex_length, ?_, ?_⟩
  · intro buffer len
    simp only [computeContentHash]
    rw [sha256hex_length]
  · intro buffer c hc
    rcases mem_hexFoldr hc with ⟨b, _, hcb⟩
    exact byteToHex_isLowerHex hcb
  · intro fileName b1 b2 n1 n2 hb hn
    rw [hb, hn]

set_option maxRecDepth 100000 in
/-- Witness for C7: the digest of the empty payload is the standard SHA-256
test vector, its truncation to the default length 8 is `e3b0c442`, the `e`
it contains is a lowercase hexadecimal digit by the theorem, and hashing the
same bytes with the same length into a file name is reproducible. -/
theorem claim_C7_witness :
    computeContentHash [] 8 = ("e3b0c442".data : Str)
    ∧ isLowerHexDigit 'e' = true
    ∧ addHashToFileName ("img/a.webp".data) (computeContentHash [] 8)
      = ("img/a-e3b0c442.webp".data : Str) :=
  ⟨by rw [claim_C7_contentHash.1]; decide,
   claim_C7_contentHash.2.2.1 [] 'e' (by decide),
   by rw [claim_C7_contentHash.2.2.2 ("img/a.webp".data) [] [] 8 8 rfl rfl]; decide⟩


/-!
### Configuration resolution (`singleImageFormat` lines 47-60, `clampInt`
lines 410-415, `encodeToTarget` lines 434-441)
-/

/-- A JavaScript runtime value as seen by `clampInt`: finite numbers are
modelled as rationals (every finite double is a rational and `Math.floor` is
exact on them); `nan`, `posInf`, `negInf` are the non-finite numbers; `undef`
and `other` have `typeof` different from `number`. -/
inductive JsVal where
  | num (q : ℚ)
  | nan
  | posInf
  | negInf
  | undef
  | other
deriving DecidableEq

/-- `typeof n === 'number'`. -/
def typeofNumber : JsVal → Bool
  | .num _ => true
  | .nan => true
  | .posInf => true
  | .negInf => true
  | _ => false

/-- `Number.isFinite`. -/
def jsIsFinite : JsVal → Bool
  | .num _ => true
  | _ => false

/-- `clampInt` of `src/index.ts`: fallback unless a finite number, else
`Math.max(1, Math.floor(n))`. -/
def clampInt (n : JsVal) (fallback : Int) : Int :=
  if ¬ typeofNumber n ∨ ¬ jsIsFinite n then fallback
  else
    match n with
    | .num q => max 1 (Rat.floor q)
    | _ => fallback

/-- The concurrency-gate capacity `pLimit(clampInt(maxConcurrent, 2))` with
the destructuring default `maxConcurrent = 2` (an absent option behaves as
the number 2). -/
def limitCapacity (maxConcurrent : Option JsVal) : Int :=
  clampInt (maxConcurrent.getD (.num 2)) 2

/-- C10.  The codec concurrency gate is created with a positive integer
capacity: a finite number yields `max(1, floor(value))`, and any non-number
or non-finite value (absent, NaN, ±Infinity, non-number) falls back to the
default 2. -/
theorem claim_C10_maxConcurrent :
    (∀ o : Option JsVal, 1 ≤ limitCapacity o)
    ∧ (∀ q : ℚ, limitCapacity (some (.num q)) = max 1 (Rat.floor q))
    ∧ limitCapacity (some .nan) = 2
    ∧ limitCapacity (some .posInf) = 2
    ∧ limitCapacity (some .negInf) = 2
    ∧ limitCapacity (some .undef) = 2
    ∧ limitCapacity (some .other) = 2
    ∧ limitCapacity none = 2 := by
  refine ⟨?_, ?_, rfl, rfl, rfl, rfl, rfl, rfl⟩
  · intro o
    match o with
    | none => simp [limitCapacity, clampInt, typeofNumber, jsIsFinite]
    | some (.num q) =>
      simp only [limitCapacity, Option.getD, clampInt, typeofNumber, jsIsFinite]
      simp only [not_true, or_self, if_false]
      exact le_max_left 1 _
    | some .nan => simp [limitCapacity, clampInt, typeofNumber, jsIsFinite]
    | some .posInf => simp [limitCapacity, clampInt, typeofNumber, jsIsFinite]
    | some .negInf => simp [limitCapacity, clampInt, typeofNumber, jsIsFinite]
    | some .undef => simp [limitCapacity, clampInt, typeofNumber, jsIsFinite]
    | some .other => simp [limitCapacity, clampInt, typeofNumber, jsIsFinite]
  · intro q
    simp [limitCapacity, clampInt, typeofNumber, jsIsFinite]

/-- The user options relevant to C9: `format` and `htmlSizeMode` as they
arrive at runtime (TypeScript's union types are not checked at run time, so
any string may be supplied). -/
structure UserOptions where
  format : Option Str
  htmlSizeMode : Option Str
deriving DecidableEq

/-- The resolved configuration. -/
structure ResolvedOptions where
  format : Str
  htmlSizeMode : Str
deriving DecidableEq

/-- The option destructuring of `singleImageFormat` (lines 47-60): plain
defaulting, no validation of the supplied values, never failing. -/
def resolveOptions (o : UserOptions) : ResolvedOptions :=
  { format := o.format.getD ("webp".data)
    htmlSizeMode := o.htmlSizeMode.getD ("add-only".data) }

/-- The codec invocations of `encodeToTarget` (lines 434-441). -/
inductive SharpCodec where
  | webp
  | png
  | avif
deriving DecidableEq

/-- Which codec `encodeToTarget` invokes: `webp` and `png` are tested, and
everything else falls through to `s.avif(...)`. -/
def encodeCodecChoice (format : Str) : SharpCodec :=
  if format = ("webp".data : Str) then .webp
  else if format = ("png".data : Str) then .png
  else .avif

/-- The fail-fast validation described by the claim (a second definition
following the claim words, for comparison with the code): reject a format
outside webp/png/avif and an htmlSizeMode outside off/add-only/overwrite at
configuration-resolution time. -/
def specValidateOptions (o : UserOptions) : Except Str ResolvedOptions :=
  let r := resolveOptions o
  if r.format ≠ ("webp".data : Str) ∧ r.format ≠ ("png".data : Str) ∧
      r.format ≠ ("avif".data : Str) then
    .error ("unknown format".data)
  else if r.htmlSizeMode ≠ ("off".data : Str) ∧
      r.htmlSizeMode ≠ ("add-only".data : Str) ∧
      r.htmlSizeMode ≠ ("overwrite".data : Str) then
    .error ("unknown htmlSizeMode".data)
  else
    .ok r

/-- C9 (amended).  No configuration validation exists: resolution is plain
defaulting that always produces a configuration, a format other than webp and
png is silently encoded as AVIF, and an htmlSizeMode other than `overwrite`
drives `rebuildImgTag` exactly like `add-only` (and, being different from
`off`, does not disable size injection). -/
theorem claim_C9_amended :
    (∀ f : Str, f ≠ ("webp".data : Str) → f ≠ ("png".data : Str) →
      encodeCodecChoice f = SharpCodec.avif)
    ∧ (∀ mode : Str, ∀ dm : DimMap, ∀ full preAttrs : Str, ∀ quote : Char,
      ∀ src postAttrs selfClose : Str, mode ≠ ("overwrite".data : Str) →
      rebuildImgTag mode dm full preAttrs quote src postAttrs selfClose
        = rebuildImgTag ("add-only".data) dm full preAttrs quote src postAttrs selfClose)
    ∧ (∀ o : UserOptions, resolveOptions o
        = { format := o.format.getD ("webp".data)
            htmlSizeMode := o.htmlSizeMode.getD ("add-only".data) }) := by
  refine ⟨?_, ?_, fun o => rfl⟩
  · intro f h1 h2
    simp [encodeCodecChoice, h1, h2]
  · intro mode dm full preAttrs quote src postAttrs selfClose hmode
    have hao : ¬ (("add-only".data : Str) = ("overwrite".data : Str)) := by decide
    cases hfn : matchFinalName dm src with
    | none => simp [rebuildImgTag, hfn]
    | some fn =>
      cases hdm : dmGet dm fn with
      | none => simp [rebuildImgTag, hfn, hdm]
      | some dims =>
        simp only [rebuildImgTag, hfn, hdm]
        rw [if_neg hmode, if_neg hao]

/-- Witness for C9: the unknown format `jpeg` is encoded with the AVIF codec,
and the unknown htmlSizeMode `banana` behaves as `add-only`. -/
theorem claim_C9_witness :
    encodeCodecChoice ("jpeg".data) = SharpCodec.avif
    ∧ rebuildImgTag ("banana".data) [] ("x".data) [] dq ("s".data) [] []
      = rebuildImgTag ("add-only".data) [] ("x".data) [] dq ("s".data) [] [] :=
  ⟨claim_C9_amended.1 ("jpeg".data) (by decide) (by decide),
   claim_C9_amended.2.1 ("banana".data) [] ("x".data) [] dq ("s".data) [] []
     (by decide)⟩

/-- Counterexample to C9 as stated: for the unknown format `jpeg` the claim
requires a failure at configuration-resolution time, but resolution is total
(it produces a configuration carrying `jpeg`), the pass proceeds, and the
encoder silently selects the AVIF codec — precisely the silent mid-pass
degradation the claim excludes.  `specValidateOptions`, the claim-side
validator, rejects the same input. -/
theorem claim_C9_counterexample :
    resolveOptions { format := some ("jpeg".data), htmlSizeMode := none }
      = { format := ("jpeg".data), htmlSizeMode := ("add-only".data) }
    ∧ specValidateOptions { format := some ("jpeg".data), htmlSizeMode := none }
      = Except.error ("unknown format".data)
    ∧ encodeCodecChoice ("jpeg".data) = SharpCodec.avif := by
  exact ⟨by decide, by rfl, by decide⟩


/-!
### The raster conversion pass of `generateBundle` (lines 456-559)

The external codec (`sharp`) is an oracle pair `(probe, encode)` in the pass
configuration: `probeInputSize` is `probe` (its failure/absent-dimension
cases collapse to `none`), `encodeToTarget` is `encode`.  `this.emitFile` is
recorded in an `emitted` list; whether the host inserts an emitted asset into
the live bundle object during the same hook is host behaviour outside this
repository and the claims settled here do not depend on it (the collision
checks of the claims concern entries present before the pass).
-/

/-- A bundle asset source: `string | Uint8Array` in Rollup. -/
inductive ASource where
  | bytes (bs : List Nat)
  | strv (s : Str)
deriving DecidableEq

/-- A bundle entry: an asset (with its source) or a code chunk. -/
inductive BItem where
  | asset (source : ASource)
  | chunk (code : Str)
deriving DecidableEq

/-- `Buffer.from(asset.source)` (both branches of line 498-499), UTF-8 on the
ASCII payloads used in this development. -/
def toBuffer : ASource → List Nat
  | .bytes bs => bs
  | .strv s => s.filterMap (fun c => if c.toNat < 128 then some c.toNat else none)

/-- `item.source.toString()` for the text-scan, UTF-8 on ASCII payloads. -/
def asStringSource : ASource → Str
  | .strv s => s
  | .bytes bs => bs.filterMap (fun b => if b < 128 then some (Char.ofNat b) else none)

/-- The alternatives of `rasterExtRE`
(`\.(png|jpe?g|webp|gif|avif|heif|heic|tiff?|bmp|jp2)$`, case-insensitive). -/
def rasterExts : List Str :=
  ["png".data, "jpg".data, "jpeg".data, "webp".data, "gif".data, "avif".data,
   "heif".data, "heic".data, "tif".data, "tiff".data, "bmp".data, "jp2".data]

/-- `rasterExtRE.test(name)`: the lowercased name ends with a recognized
raster extension. -/
def rasterTest (name : Str) : Bool :=
  rasterExts.any (fun e => ('.' :: e).isSuffixOf (lowerStr name))

/-- The extension matched by `rasterExtRE` (unique when it exists, since no
listed dotted extension is a suffix of another). -/
def rasterExtSuffix (name : Str) : Option Str :=
  rasterExts.find? (fun e => ('.' :: e).isSuffixOf (lowerStr name))

/-- `fileName.replace(rasterExtRE, '.' + format)`: swap the final raster
extension for the target format. -/
def swapRasterExt (name fmt : Str) : Str :=
  match rasterExtSuffix name with
  | none => name
  | some e => name.take (name.length - (e.length + 1)) ++ '.' :: fmt

/-- The pass configuration: resolved options plus the codec oracles. -/
structure PassCfg where
  format : Str
  reencode : Bool
  hashInName : Bool
  hashLength : Nat
  probe : List Nat → Option (Nat × Nat)
  encode : List Nat → List Nat

/-- The output bundle: artifact name to entry, in insertion order. -/
abbrev Bundle := List (Str × BItem)

/-- `bundle[name]` lookup. -/
def bGet (b : Bundle) (k : Str) : Option BItem :=
  (b.find? (fun e => decide (e.1 = k))).map Prod.snd

/-- `asset.source = buf` on the entry named `k` (used only on asset entries;
names are unique object keys). -/
def bSetSource (b : Bundle) (k : Str) (src : ASource) : Bundle :=
  b.map (fun e => if e.1 = k then (e.1, BItem.asset src) else e)

/-- `delete bundle[name]`. -/
def bDelete (b : Bundle) (k : Str) : Bundle :=
  b.filter (fun e => decide (e.1 ≠ k))

/-- JavaScript `Map.set`: update the existing entry in place, else append. -/
def dmSet (dm : DimMap) (k : Str) (v : Nat × Nat) : DimMap :=
  if (dm.find? (fun e => decide (e.1 = k))).isSome then
    dm.map (fun e => if e.1 = k then (k, v) else e)
  else dm ++ [(k, v)]

/-- `if (inputSize) dimensionMap.set(name, inputSize)`. -/
def dmSetOpt (dm : DimMap) (k : Str) (o : Option (Nat × Nat)) : DimMap :=
  match o with
  | none => dm
  | some v => dmSet dm k v

/-- The mutable state of one `generateBundle` invocation: the live bundle,
the plugin-instance `dimensionMap`, and the invocation-local `renameMap` and
emitted files. -/
structure PassSt where
  bundle : Bundle
  dm : DimMap
  renameMap : List (Str × Str)
  emitted : List (Str × List Nat)
deriving DecidableEq

/-- The body of the per-asset loop of `generateBundle` (lines 495-559) for
one snapshot entry. -/
def processRasterEntry (cfg : PassCfg) (keepSet : List Str) (st : PassSt)
    (entry : Str × BItem) : PassSt :=
  match entry with
  | (_, BItem.chunk _) => st
  | (fileName, BItem.asset src) =>
    if ¬ rasterTest fileName then st
    else
      let inputBuffer := toBuffer src
      let inputSize := cfg.probe inputBuffer
      if fileName ∈ keepSet then
        { st with dm := dmSetOpt st.dm fileName inputSize }
      else
        let isTargetExt := ('.' :: cfg.format).isSuffixOf (lowerStr fileName)
        if isTargetExt ∧ ¬ cfg.reencode then
          if ¬ cfg.hashInName then
            { st with dm := dmSetOpt st.dm fileName inputSize }
          else
            let hashedName :=
              addHashToFileName fileName (computeContentHash inputBuffer cfg.hashLength)
            if (bGet st.bundle hashedName).isSome then
              { st with dm := dmSetOpt st.dm fileName inputSize }
            else
              { bundle := bDelete st.bundle fileName
                dm := dmSetOpt st.dm hashedName inputSize
                renameMap := st.renameMap ++ [(fileName, hashedName)]
                emitted := st.emitted ++ [(hashedName, inputBuffer)] }
        else
          let outputBuffer := cfg.encode inputBuffer
          if isTargetExt then
            { st with
              bundle := bSetSource st.bundle fileName (ASource.bytes outputBuffer)
              dm := dmSetOpt st.dm fileName inputSize }
          else
            let targetName := swapRasterExt fileName cfg.format
            let newName :=
              if cfg.hashInName then
                addHashToFileName targetName
                  (computeContentHash outputBuffer cfg.hashLength)
              else targetName
            if (bGet st.bundle newName).isSome then
              { st with
                bundle := bSetSource st.bundle fileName (ASource.bytes outputBuffer)
                dm := dmSetOpt st.dm fileName inputSize }
            else
              { bundle := bDelete st.bundle fileName
                dm := dmSetOpt st.dm newName inputSize
                renameMap := st.renameMap ++ [(fileName, newName)]
                emitted := st.emitted ++ [(newName, outputBuffer)] }

/-- `isTextLikeAssetFileName` of `src/index.ts`. -/
def isTextLikeAssetFileName (fileName : Str) : Bool :=
  [".html".data, ".css".data, ".js".data, ".mjs".data, ".ts".data,
   ".jsx".data, ".tsx".data].any (fun e => (e : Str).isSuffixOf fileName)

/-- `isChunkFileName` of `src/index.ts`. -/
def isChunkFileName (fileName : Str) : Bool :=
  (".js".data : Str).isSuffixOf fileName || (".mjs".data : Str).isSuffixOf fileName ||
    (".cjs".data : Str).isSuffixOf fileName

/-- `collectTextRefs` of `src/index.ts` (lines 101-118). -/
def collectTextRefs (bundle : Bundle) : List (Str × Str) :=
  bundle.filterMap (fun e =>
    match e.2 with
    | BItem.asset src =>
      if isTextLikeAssetFileName e.1 then some (e.1, asStringSource src) else none
    | BItem.chunk code =>
      if isChunkFileName e.1 then some (e.1, code) else none)

/-- The opt-out scan of `generateBundle` (lines 460-493): the KeepSet built
over the pre-pass bundle (skipped entirely when there are no text refs). -/
def scanKeepSet (bundle : Bundle) : List Str :=
  let textRefs := collectTextRefs bundle
  if textRefs.length = 0 then []
  else
    bundle.filterMap (fun e =>
      match e.2 with
      | BItem.asset _ =>
        if rasterTest e.1 ∧ shouldKeepName textRefs e.1 then some e.1 else none
      | BItem.chunk _ => none)

/-- The raster-scan-and-convert portion of one `generateBundle` invocation:
`renameMap` and `keepSet` are created afresh inside the invocation (lines
457-458), while `dmState` is the plugin-instance `dimensionMap` (line 89)
threaded in from previous invocations; the loop iterates the pre-pass entry
snapshot (`Object.entries(bundle)` is evaluated once). -/
def generateBundleRaster (cfg : PassCfg) (dmState : DimMap) (bundle : Bundle) :
    PassSt :=
  let keepSet := scanKeepSet bundle
  bundle.foldl (processRasterEntry cfg keepSet)
    { bundle := bundle, dm := dmState, renameMap := [], emitted := [] }


theorem find?_map_comm {α : Type} (f : α → α) (p : α → Bool)
    (hp : ∀ a, p (f a) = p a) :
    ∀ l : List α, (l.map f).find? p = (l.find? p).map f := by
  intro l
  induction l with
  | nil => rfl
  | cons a t ih =>
    simp only [List.map_cons, List.find?_cons, hp a]
    cases ha : p a
    · simpa [ha] using ih
    · simp [ha]

theorem bSetSource_key_pred (k1 k2 : Str) (v : ASource) :
    ∀ e : Str × BItem,
      (decide ((if e.1 = k1 then (e.1, BItem.asset v) else e).1 = k2))
        = decide (e.1 = k2) := by
  intro e
  by_cases h1 : e.1 = k1 <;> simp [h1]

/-- Mutating the source of the entry named `k1` leaves every other lookup
unchanged. -/
theorem bGet_bSetSource_ne {b : Bundle} {k1 k2 : Str} {v : ASource}
    (h : k2 ≠ k1) :
    bGet (bSetSource b k1 v) k2 = bGet b k2 := by
  unfold bGet bSetSource
  rw [find?_map_comm _ _ (bSetSource_key_pred k1 k2 v)]
  cases hf : b.find? (fun e => decide (e.1 = k2)) with
  | none => rfl
  | some e =>
    have hpe := List.find?_some hf
    simp only [decide_eq_true_eq] at hpe
    have hne : ¬ (e.1 = k1) := fun hh => h (by rw [← hpe, hh])
    simp [hne]

/-- Mutating the source of a present entry makes its lookup return the new
source under the same name. -/
theorem bGet_bSetSource_self {b : Bundle} {k : Str} {v : ASource}
    (h : (bGet b k).isSome = true) :
    bGet (bSetSource b k v) k = some (BItem.asset v) := by
  unfold bGet bSetSource
  rw [find?_map_comm _ _ (bSetSource_key_pred k k v)]
  unfold bGet at h
  cases hf : b.find? (fun e => decide (e.1 = k)) with
  | none => rw [hf] at h; simp at h
  | some e =>
    have hpe := List.find?_some hf
    simp only [decide_eq_true_eq] at hpe
    simp [hpe]

/-- C5 (amended).  When a non-exempt raster needs conversion and the computed
final name is already occupied by an existing bundle entry: no error is
raised (the step is a total state update), no rename is recorded, no file is
emitted, the *original* entry's bytes are overwritten in place with the newly
encoded bytes — the original stays alive under its old name — and the
colliding final-name entry is left completely untouched. -/
theorem claim_C5_amended (cfg : PassCfg) (keepSet : List Str) (st : PassSt)
    (fileName newName : Str) (src : ASource)
    (hraster : rasterTest fileName = true)
    (hkeep : fileName ∉ keepSet)
    (htarget : ('.' :: cfg.format).isSuffixOf (lowerStr fileName) = false)
    (hnew : newName = (if cfg.hashInName then
        addHashToFileName (swapRasterExt fileName cfg.format)
          (computeContentHash (cfg.encode (toBuffer src)) cfg.hashLength)
      else swapRasterExt fileName cfg.format))
    (hcol : (bGet st.bundle newName).isSome = true)
    (hneq : newName ≠ fileName)
    (hpresent : (bGet st.bundle fileName).isSome = true) :
    processRasterEntry cfg keepSet st (fileName, BItem.asset src)
      = { st with
          bundle := bSetSource st.bundle fileName
            (ASource.bytes (cfg.encode (toBuffer src)))
          dm := dmSetOpt st.dm fileName (cfg.probe (toBuffer src)) }
    ∧ (processRasterEntry cfg keepSet st (fileName, BItem.asset src)).renameMap
      = st.renameMap
    ∧ (processRasterEntry cfg keepSet st (fileName, BItem.asset src)).emitted
      = st.emitted
    ∧ bGet (processRasterEntry cfg keepSet st (fileName, BItem.asset src)).bundle
        newName = bGet st.bundle newName
    ∧ bGet (processRasterEntry cfg keepSet st (fileName, BItem.asset src)).bundle
        fileName
      = some (BItem.asset (ASource.bytes (cfg.encode (toBuffer src)))) := by
  have heq : processRasterEntry cfg keepSet st (fileName, BItem.asset src)
      = { st with
          bundle := bSetSource st.bundle fileName
            (ASource.bytes (cfg.encode (toBuffer src)))
          dm := dmSetOpt st.dm fileName (cfg.probe (toBuffer src)) } := by
    simp only [processRasterEntry, hraster, htarget, ← hnew, hcol]
    simp [hkeep]
  refine ⟨heq, ?_, ?_, ?_, ?_⟩
  · rw [heq]
  · rw [heq]
  · rw [heq]
    exact bGet_bSetSource_ne hneq
  · rw [heq]
    exact bGet_bSetSource_self hpresent

/-- The configuration of the C5 scenarios: convert to webp, no hashing, a
probe that reports no dimensions, and an encoder producing the byte `9`. -/
def cfgC5 : PassCfg :=
  { format := "webp".data, reencode := false, hashInName := false,
    hashLength := 8, probe := fun _ => none, encode := fun _ => [9] }

/-- A bundle in which the converted name of `a.png` is already occupied. -/
def bundleC5 : Bundle :=
  [(("a.png").data, BItem.asset (ASource.bytes [1])),
   (("a.webp").data, BItem.asset (ASource.bytes [2]))]

/-- The pass state at the `a.png` iteration of the C5 scenario. -/
def stC5 : PassSt :=
  { bundle := bundleC5, dm := [], renameMap := [], emitted := [] }

/-- Witness for C5: in the collision scenario the original `a.png` entry now
carries the encoded bytes and the colliding `a.webp` entry is unchanged. -/
theorem claim_C5_witness :
    bGet (processRasterEntry cfgC5 [] stC5
        (("a.png").data, BItem.asset (ASource.bytes [1]))).bundle (("a.png").data)
      = some (BItem.asset (ASource.bytes [9]))
    ∧ bGet (processRasterEntry cfgC5 [] stC5
        (("a.png").data, BItem.asset (ASource.bytes [1]))).bundle (("a.webp").data)
      = bGet stC5.bundle (("a.webp").data) :=
  ⟨(claim_C5_amended cfgC5 [] stC5 (("a.png").data) (("a.webp").data)
      (ASource.bytes [1]) (by decide) (by decide) (by decide) (by decide)
      (by decide) (by decide) (by decide)).2.2.2.2,
   (claim_C5_amended cfgC5 [] stC5 (("a.png").data) (("a.webp").data)
      (ASource.bytes [1]) (by decide) (by decide) (by decide) (by decide)
      (by decide) (by decide) (by decide)).2.2.2.1⟩

/-- Counterexample to C5 as stated: running the pass over `bundleC5`, the
colliding final-name entry `a.webp` keeps its original bytes `[2]` — it is
*not* overwritten with the newly encoded bytes `[9]` as the claim states;
instead the original `a.png` entry receives the encoded bytes.  (The
no-error, no-rename, original-stays-alive parts of the claim do hold.) -/
theorem claim_C5_counterexample :
    bGet (generateBundleRaster cfgC5 [] bundleC5).bundle (("a.webp").data)
      = some (BItem.asset (ASource.bytes [2]))
    ∧ bGet (generateBundleRaster cfgC5 [] bundleC5).bundle (("a.png").data)
      = some (BItem.asset (ASource.bytes [9]))
    ∧ (generateBundleRaster cfgC5 [] bundleC5).renameMap = []
    ∧ ¬ (bGet (generateBundleRaster cfgC5 [] bundleC5).bundle (("a.webp").data)
        = some (BItem.asset (ASource.bytes [9]))) := by
  exact ⟨by decide, by decide, by decide, by decide⟩


theorem dmSet_key_pred (k k2 : Str) (v : Nat × Nat) :
    ∀ e : Str × (Nat × Nat),
      (decide ((if e.1 = k2 then (k2, v) else e).1 = k)) = decide (e.1 = k) := by
  intro e
  by_cases h1 : e.1 = k2
  · simp [h1]
  · simp [h1]

theorem find?_append_left {α : Type} (p : α → Bool) :
    ∀ l1 l2 : List α, (l1.find? p).isSome = true →
      (l1 ++ l2).find? p = l1.find? p := by
  intro l1
  induction l1 with
  | nil => intro l2 h; simp at h
  | cons a t ih =>
    intro l2 h
    simp only [List.cons_append, List.find?_cons]
    cases ha : p a
    · simp only [List.find?_cons, ha] at h
      simpa [ha] using ih l2 h
    · simp [ha]

/-- `Map.set` never removes a key. -/
theorem dmGet_isSome_dmSet {dm : DimMap} {k k2 : Str} {v : Nat × Nat}
    (h : (dmGet dm k).isSome = true) :
    (dmGet (dmSet dm k2 v) k).isSome = true := by
  unfold dmSet
  split
  · unfold dmGet at h ⊢
    rw [find?_map_comm _ _ (dmSet_key_pred k k2 v)]
    cases hf : dm.find? (fun e => decide (e.1 = k)) with
    | none => rw [hf] at h; simp at h
    | some e => simp
  · unfold dmGet at h ⊢
    rw [find?_append_left _ dm [(k2, v)] (by
      cases hf : dm.find? (fun e => decide (e.1 = k)) with
      | none => rw [hf] at h; simp at h
      | some e => simp)]
    exact h

theorem dmGet_isSome_dmSetOpt {dm : DimMap} {k k2 : Str} {o : Option (Nat × Nat)}
    (h : (dmGet dm k).isSome = true) :
    (dmGet (dmSetOpt dm k2 o) k).isSome = true := by
  cases o with
  | none => exact h
  | some v => exact dmGet_isSome_dmSet h

/-- One loop iteration only ever calls `dimensionMap.set`: existing keys
survive. -/
theorem processRasterEntry_dm_mono (cfg : PassCfg) (keepSet : List Str)
    (st : PassSt) (e : Str × BItem) (k : Str)
    (h : (dmGet st.dm k).isSome = true) :
    (dmGet (processRasterEntry cfg keepSet st e).dm k).isSome = true := by
  rcases e with ⟨fn, it⟩
  cases it with
  | chunk code => exact h
  | asset src =>
    simp only [processRasterEntry]
    split_ifs <;>
      first
        | exact h
        | exact dmGet_isSome_dmSetOpt h

/-- One loop iteration's bundle, renameMap and emitted components do not
depend on the incoming `dimensionMap` state. -/
theorem processRasterEntry_dm_irrel (cfg : PassCfg) (keepSet : List Str)
    (e : Str × BItem) (b : Bundle) (d1 d2 : DimMap)
    (r : List (Str × Str)) (m : List (Str × List Nat)) :
    (processRasterEntry cfg keepSet ⟨b, d1, r, m⟩ e).bundle
      = (processRasterEntry cfg keepSet ⟨b, d2, r, m⟩ e).bundle
    ∧ (processRasterEntry cfg keepSet ⟨b, d1, r, m⟩ e).renameMap
      = (processRasterEntry cfg keepSet ⟨b, d2, r, m⟩ e).renameMap
    ∧ (processRasterEntry cfg keepSet ⟨b, d1, r, m⟩ e).emitted
      = (processRasterEntry cfg keepSet ⟨b, d2, r, m⟩ e).emitted := by
  rcases e with ⟨fn, it⟩
  cases it with
  | chunk code => exact ⟨rfl, rfl, rfl⟩
  | asset src =>
    simp only [processRasterEntry]
    split_ifs <;> exact ⟨rfl, rfl, rfl⟩

/-- C6 (amended).  KeepSet and RenameMap are created afresh for every
`generateBundle` invocation and their computation — like the bundle mutations
and emissions — is independent of the plugin-instance state; the DimensionMap,
however, is plugin-instance state created once per plugin: every entry present
before an invocation is still present after it, so entries are carried over
into later invocations of the same instance. -/
theorem claim_C6_amended :
    (∀ cfg : PassCfg, ∀ dm1 dm2 : DimMap, ∀ bundle : Bundle,
      (generateBundleRaster cfg dm1 bundle).renameMap
        = (generateBundleRaster cfg dm2 bundle).renameMap
      ∧ (generateBundleRaster cfg dm1 bundle).bundle
        = (generateBundleRaster cfg dm2 bundle).bundle
      ∧ (generateBundleRaster cfg dm1 bundle).emitted
        = (generateBundleRaster cfg dm2 bundle).emitted)
    ∧ (∀ cfg : PassCfg, ∀ dmState : DimMap, ∀ bundle : Bundle, ∀ k : Str,
      (dmGet dmState k).isSome = true →
      (dmGet (generateBundleRaster cfg dmState bundle).dm k).isSome = true) := by
  constructor
  · intro cfg dm1 dm2 bundle
    have main : ∀ (entries : List (Str × BItem)) (ks : List Str)
        (b : Bundle) (d1 d2 : DimMap) (r : List (Str × Str))
        (m : List (Str × List Nat)),
        (entries.foldl (processRasterEntry cfg ks) ⟨b, d1, r, m⟩).bundle
          = (entries.foldl (processRasterEntry cfg ks) ⟨b, d2, r, m⟩).bundle
        ∧ (entries.foldl (processRasterEntry cfg ks) ⟨b, d1, r, m⟩).renameMap
          = (entries.foldl (processRasterEntry cfg ks) ⟨b, d2, r, m⟩).renameMap
        ∧ (entries.foldl (processRasterEntry cfg ks) ⟨b, d1, r, m⟩).emitted
          = (entries.foldl (processRasterEntry cfg ks) ⟨b, d2, r, m⟩).emitted := by
      intro entries
      induction entries with
      | nil => intro ks b d1 d2 r m; exact ⟨rfl, rfl, rfl⟩
      | cons e rest ih =>
        intro ks b d1 d2 r m
        simp only [List.foldl_cons]
        obtain ⟨hb, hr, hm⟩ := processRasterEntry_dm_irrel cfg ks e b d1 d2 r m
        have hst2 : processRasterEntry cfg ks ⟨b, d2, r, m⟩ e
            = ⟨(processRasterEntry cfg ks ⟨b, d1, r, m⟩ e).bundle,
               (processRasterEntry cfg ks ⟨b, d2, r, m⟩ e).dm,
               (processRasterEntry cfg ks ⟨b, d1, r, m⟩ e).renameMap,
               (processRasterEntry cfg ks ⟨b, d1, r, m⟩ e).emitted⟩ := by
          rw [hb, hr, hm]
        rw [hst2]
        exact ih ks (processRasterEntry cfg ks ⟨b, d1, r, m⟩ e).bundle
          (processRasterEntry cfg ks ⟨b, d1, r, m⟩ e).dm
          (processRasterEntry cfg ks ⟨b, d2, r, m⟩ e).dm
          (processRasterEntry cfg ks ⟨b, d1, r, m⟩ e).renameMap
          (processRasterEntry cfg ks ⟨b, d1, r, m⟩ e).emitted
    have h := main bundle (scanKeepSet bundle) bundle dm1 dm2 [] []
    exact ⟨h.2.1, h.1, h.2.2⟩
  · intro cfg dmState bundle k h
    have main : ∀ (entries : List (Str × BItem)) (ks : List Str) (st : PassSt),
        (dmGet st.dm k).isSome = true →
        (dmGet (entries.foldl (processRasterEntry cfg ks) st).dm k).isSome = true := by
      intro entries
      induction entries with
      | nil => intro ks st hst; exact hst
      | cons e rest ih =>
        intro ks st hst
        simp only [List.foldl_cons]
        exact ih ks _ (processRasterEntry_dm_mono cfg ks st e k hst)
    exact main bundle (scanKeepSet bundle) _ h


/-- The configuration of the C6 scenario: convert to webp, a probe reporting
2 by 3 pixels, an encoder producing the byte `9`. -/
def cfgC6 : PassCfg :=
  { format := "webp".data, reencode := false, hashInName := false,
    hashLength := 8, probe := fun _ => some (2, 3), encode := fun _ => [9] }

/-- A one-image bundle for the C6 scenario. -/
def bundleC6 : Bundle := [(("a.png").data, BItem.asset (ASource.bytes [1]))]

/-- Witness for C6: an entry already present in the plugin-instance
DimensionMap before an invocation is still present after it, and the
RenameMap an invocation computes does not depend on that instance state. -/
theorem claim_C6_witness :
    (dmGet (generateBundleRaster cfgC6 [(("old.webp").data, (7, 7))] bundleC6).dm
        (("old.webp").data)).isSome = true
    ∧ (generateBundleRaster cfgC6 [] bundleC6).renameMap
      = (generateBundleRaster cfgC6 [(("old.webp").data, (7, 7))] bundleC6).renameMap :=
  ⟨claim_C6_amended.2 cfgC6 [(("old.webp").data, (7, 7))] bundleC6
      (("old.webp").data) (by decide),
   (claim_C6_amended.1 cfgC6 [] [(("old.webp").data, (7, 7))] bundleC6).1⟩

/-- Counterexample to C6 as stated: `dimensionMap` is created once per plugin
instance (line 89) and never cleared, so after a first `generateBundle`
invocation over `bundleC6` the instance state is the non-empty map
`[(a.webp, (2,3))]` — and that is exactly the DimensionMap the same plugin
instance uses at the start of its next invocation, contradicting the claim
that the DimensionMap used during one invocation contains no entries carried
over from a previous invocation. -/
theorem claim_C6_counterexample :
    (generateBundleRaster cfgC6 [] bundleC6).dm = [(("a.webp").data, (2, 3))]
    ∧ (generateBundleRaster cfgC6 [] bundleC6).dm ≠ []
    ∧ dmGet (generateBundleRaster cfgC6 [] bundleC6).dm (("a.webp").data)
      = some (2, 3) := by
  exact ⟨by decide, by decide, by decide⟩

end SIF
